import Mathlib

/-!
Verification development for the BVH construction core of the `raytracing`
repository (`rt-engine/src/shader/model/bvh.rs`, `load.rs`, `model.rs`).

The Rust code computes with `f32`/`f64`.  We embed numbers as the type `F`:
exact rationals together with the IEEE special values `+∞`, `-∞` and `NaN`,
with the IEEE rules for how the special values propagate through `+`, `-`,
`*`, `min`, `max` and `<` (Rust's `f32::min`/`f32::max` ignore a `NaN`
argument).  Finite arithmetic is exact (no rounding); the one claim that is
about rounding precision (the cost function's single- vs double-precision
arithmetic) is treated separately at the end of the file with an explicit
round-to-nearest-even model over ℚ.
-/

attribute [local semireducible] Rat.mul Rat.add Rat.sub Rat.inv

namespace RT

/-- Embedding of an IEEE floating-point value: `NaN`, a signed infinity
(`inf true = +∞`, `inf false = -∞`), or an exact finite value. -/
inductive F where
  | nan : F
  | inf : Bool → F
  | fin : ℚ → F
deriving DecidableEq, Repr

namespace F

/-- Negation. -/
def neg : F → F
  | nan => nan
  | inf b => inf (!b)
  | fin q => fin (-q)

/-- IEEE addition on the embedding (exact on finite values). -/
def add : F → F → F
  | nan, _ => nan
  | _, nan => nan
  | inf b, inf c => if b = c then inf b else nan
  | inf b, fin _ => inf b
  | fin _, inf c => inf c
  | fin a, fin b => fin (a + b)

/-- IEEE subtraction, `x - y = x + (-y)`. -/
def sub (x y : F) : F := add x (neg y)

/-- IEEE multiplication on the embedding (exact on finite values);
`0 * ±∞ = NaN`. -/
def mul : F → F → F
  | nan, _ => nan
  | _, nan => nan
  | inf b, inf c => inf (b = c)
  | inf b, fin q => if q = 0 then nan else inf (b = decide (0 < q))
  | fin q, inf c => if q = 0 then nan else inf (c = decide (0 < q))
  | fin a, fin b => fin (a * b)

/-- Fused multiply-add `a * b + c`.  With exact finite arithmetic the fusion
introduces no rounding; the IEEE special-value behaviour of `fma` coincides
with that of `add (mul a b) c`. -/
def muladd (a b c : F) : F := add (mul a b) c

/-- Rust's `f32::min`: returns the other operand when one argument is `NaN`. -/
def fmin : F → F → F
  | nan, y => y
  | x, nan => x
  | inf true, y => y
  | x, inf true => x
  | inf false, _ => inf false
  | _, inf false => inf false
  | fin a, fin b => fin (min a b)

/-- Rust's `f32::max`: returns the other operand when one argument is `NaN`. -/
def fmax : F → F → F
  | nan, y => y
  | x, nan => x
  | inf false, y => y
  | x, inf false => x
  | inf true, _ => inf true
  | _, inf true => inf true
  | fin a, fin b => fin (max a b)

/-- IEEE strict comparison `x < y`; any comparison with `NaN` is `false`. -/
def flt : F → F → Bool
  | nan, _ => false
  | _, nan => false
  | inf b, inf c => !b && c
  | inf b, fin _ => !b
  | fin _, inf c => c
  | fin a, fin b => decide (a < b)

/-- Truth of finiteness. -/
def isFin : F → Bool
  | fin _ => true
  | _ => false

/-- The rational value of a finite embedded float (junk `0` otherwise). -/
def toQ : F → ℚ
  | fin q => q
  | _ => 0

instance : Inhabited F := ⟨nan⟩

end F

/-- A 3-component vector of embedded floats, as the `[f32; 3]` of the source. -/
structure V3 where
  x : F
  y : F
  z : F
deriving DecidableEq, Repr

namespace V3

/-- Indexing `v[axis]` for `axis ∈ {0, 1, 2}` as in the source; other
indices are out of bounds in Rust (a panic) and map to junk `NaN` here. -/
def nth (v : V3) : ℕ → F
  | 0 => v.x
  | 1 => v.y
  | 2 => v.z
  | _ + 3 => F.nan

/-- The all-`+∞` vector, `[f32::INFINITY; 3]`. -/
def vInf : V3 := ⟨F.inf true, F.inf true, F.inf true⟩

/-- The all-`-∞` vector, `[f32::NEG_INFINITY; 3]`. -/
def vNegInf : V3 := ⟨F.inf false, F.inf false, F.inf false⟩

/-- All three components are finite values. -/
def Finite (v : V3) : Prop := v.x.isFin = true ∧ v.y.isFin = true ∧ v.z.isFin = true

instance : Inhabited V3 := ⟨vInf⟩

instance (v : V3) : Decidable v.Finite := by unfold Finite; infer_instance

end V3

/-- A pair of UV texture coordinates, `[f32; 2]`. -/
structure UV where
  u : F
  v : F
deriving DecidableEq, Repr

instance : Inhabited UV := ⟨⟨F.nan, F.nan⟩⟩

/-- The `Triangle` record of the shader source: three vertices, an
unnormalized face normal, and per-vertex UVs. -/
structure Triangle where
  v0 : V3
  v1 : V3
  v2 : V3
  normal : V3
  uv0 : UV
  uv1 : UV
  uv2 : UV
deriving DecidableEq, Repr

instance : Inhabited Triangle :=
  ⟨⟨default, default, default, default, default, default, default⟩⟩

namespace Triangle

/-- All vertex coordinates of the triangle are finite. -/
def Finite (t : Triangle) : Prop := t.v0.Finite ∧ t.v1.Finite ∧ t.v2.Finite

instance (t : Triangle) : Decidable t.Finite := by unfold Finite; infer_instance

/-- The classifier `triangle.vertices.iter().any(|vertex| vertex[split_axis]
< split_position)` of the source. -/
def anyVertexBelow (t : Triangle) (axis : ℕ) (pos : F) : Bool :=
  F.flt (t.v0.nth axis) pos || F.flt (t.v1.nth axis) pos || F.flt (t.v2.nth axis) pos

end Triangle

/-- The `Bvh` node record of the shader source. The `u32` index fields are
embedded as `ℕ` (the source checks its `u32` conversions with
`try_from ... expect`, aborting rather than wrapping on overflow). -/
structure Bvh where
  min_bound : V3
  max_bound : V3
  left_offset : ℕ
  right_offset : ℕ
  triangle_offset : ℕ
  triangle_count : ℕ
deriving DecidableEq, Repr

instance : Inhabited Bvh := ⟨⟨default, default, 0, 0, 0, 0⟩⟩

/-- The `Model` record: the index of the mesh's BVH root in the global node
array, and a material id. -/
structure Model where
  bvh_index : ℕ
  material_id : ℕ
deriving DecidableEq, Repr

namespace Bvh

/-- `Bvh::grow_to_include` on a min/max bound pair. -/
def growP (mm : V3 × V3) (p : V3) : V3 × V3 :=
  (⟨F.fmin mm.1.x p.x, F.fmin mm.1.y p.y, F.fmin mm.1.z p.z⟩,
   ⟨F.fmax mm.2.x p.x, F.fmax mm.2.y p.y, F.fmax mm.2.z p.z⟩)

/-- Grow a bound pair by all three vertices of a triangle, in source order. -/
def growT (mm : V3 × V3) (t : Triangle) : V3 × V3 :=
  growP (growP (growP mm t.v0) t.v1) t.v2

/-- The axis-aligned bounding box of a triangle list, grown from the inverted
initial bounds `([+∞; 3], [-∞; 3])` exactly as in `Bvh::build`. -/
def tightAABB (ts : List Triangle) : V3 × V3 :=
  ts.foldl growT (V3.vInf, V3.vNegInf)

/-- `Bvh::bvh_cost`: the surface-area-heuristic cost of a node.  In the
source the extent and surface-area arithmetic is `f32` and only the final
multiplication by `count` is `f64`; in this exact (unrounded) embedding the
widths play no role, so a single `F` computation represents both. -/
def bvh_cost (min_bound max_bound : V3) (count : ℕ) : F :=
  let dx := F.sub max_bound.x min_bound.x
  let dy := F.sub max_bound.y min_bound.y
  let dz := F.sub max_bound.z min_bound.z
  let surface_area := F.muladd dx (F.add dy dz) (F.mul dy dz)
  F.mul (F.fin (count : ℚ)) surface_area

/-- Accumulator of `Bvh::evaluate_split`: per-side bounds and counts. -/
structure EvalAcc where
  minL : V3
  maxL : V3
  minR : V3
  maxR : V3
  countL : ℕ
  countR : ℕ

/-- One iteration of the `evaluate_split` loop body. -/
def evalStep (axis : ℕ) (pos : F) (acc : EvalAcc) (t : Triangle) : EvalAcc :=
  if t.anyVertexBelow axis pos then
    let mm := growT (acc.minL, acc.maxL) t
    { acc with minL := mm.1, maxL := mm.2, countL := acc.countL + 1 }
  else
    let mm := growT (acc.minR, acc.maxR) t
    { acc with minR := mm.1, maxR := mm.2, countR := acc.countR + 1 }

/-- `Bvh::evaluate_split`: cost of splitting `ts` at `pos` on `axis`. -/
def evaluate_split (axis : ℕ) (pos : F) (ts : List Triangle) : F :=
  let acc := ts.foldl (evalStep axis pos)
    ⟨V3.vInf, V3.vNegInf, V3.vInf, V3.vNegInf, 0, 0⟩
  F.add (bvh_cost acc.minL acc.maxL acc.countL) (bvh_cost acc.minR acc.maxR acc.countR)

/-- The constant `MIN_TRIANGLES` of `Bvh::choose_split`. -/
def MIN_TRIANGLES : ℕ := 2

/-- The constant `SPLIT_TEST_COUNT` of `Bvh::choose_split`. -/
def SPLIT_TEST_COUNT : ℕ := 5

/-- One candidate test of the `choose_split` inner loop: at fraction
`(i+1)/(SPLIT_TEST_COUNT+1)` of the node's extent on `axis`. -/
def chooseStep (b : Bvh) (ts : List Triangle) (axis : ℕ) (st : ℕ × F × F) (i : ℕ) :
    ℕ × F × F :=
  let delta := F.sub (b.max_bound.nth axis) (b.min_bound.nth axis)
  let split_lambda := F.fin ((i + 1 : ℕ) / ((SPLIT_TEST_COUNT : ℚ) + 1))
  let split_pos := F.muladd split_lambda delta (b.min_bound.nth axis)
  let cost := evaluate_split axis split_pos ts
  if F.flt cost st.2.2 then (axis, split_pos, cost) else st

/-- `Bvh::choose_split`: sample `SPLIT_TEST_COUNT` candidate positions on
each of the three axes and keep the cheapest; slices of at most
`MIN_TRIANGLES` triangles get an infinite cost immediately. -/
def choose_split (b : Bvh) (ts : List Triangle) : ℕ × F × F :=
  if ts.length ≤ MIN_TRIANGLES then (0, F.fin 0, F.inf true)
  else
    (List.range 3).foldl
      (fun st axis => (List.range SPLIT_TEST_COUNT).foldl (chooseStep b ts axis) st)
      (0, F.fin 0, F.inf true)

/-- Exchange the elements at positions `i` and `j` (the `slice::swap` of the
source); out-of-range indices leave the list unchanged (a panic in Rust,
never reached in the uses below). -/
def swapIdx {α : Type _} (l : List α) (i j : ℕ) : List α :=
  match l[i]?, l[j]? with
  | some a, some b => (l.set i b).set j a
  | _, _ => l

/-- State of the in-place partition loop of `Bvh::split`: the triangle slice
being reordered and the two child nodes being grown. -/
structure PartAcc where
  ts : List Triangle
  left : Bvh
  right : Bvh

/-- Grow a child node by one triangle: count incremented, bounds grown by
its three vertices (the `target_bvh` update of the source). -/
def growNode (b : Bvh) (t : Triangle) : Bvh :=
  let mm := growT (b.min_bound, b.max_bound) t
  { b with min_bound := mm.1, max_bound := mm.2, triangle_count := b.triangle_count + 1 }

/-- One iteration of the partition loop of `Bvh::split` at index `i`:
classify `triangles[i]`, swap it (unconditionally) with the slot
`bvh_left.triangle_count`, re-read that slot and grow the classified side. -/
def partStep (p : Triangle → Bool) (acc : PartAcc) (i : ℕ) : PartAcc :=
  let isLeft := p (acc.ts.getD i default)
  let lc := acc.left.triangle_count
  let ts1 := swapIdx acc.ts i lc
  let t := ts1.getD lc default
  if isLeft then ⟨ts1, growNode acc.left t, acc.right⟩
  else ⟨ts1, acc.left, growNode acc.right t⟩

/-- The partition loop `for i in 0..triangles.len()`, written with an index
`i` and a remaining-iterations count `k`. -/
def partLoop (p : Triangle → Bool) : ℕ → ℕ → PartAcc → PartAcc
  | _, 0, acc => acc
  | i, k + 1, acc => partLoop p (i + 1) k (partStep p acc i)

/-- The whole in-place partition pass of `Bvh::split`. -/
def partitionTris (p : Triangle → Bool) (bl br : Bvh) (ts : List Triangle) : PartAcc :=
  partLoop p 0 ts.length ⟨ts, bl, br⟩

/-- Write `v` into the `right_offset` field of the node at index `i`
(the patch `bvhs[start_bvh_len - 1].right_offset = ...` of the source). -/
def patchRight (l : List Bvh) (i : ℕ) (v : ℕ) : List Bvh :=
  match l[i]? with
  | some b => l.set i { b with right_offset := v }
  | none => l

/-- `Bvh::split`, written with a fuel parameter so that the recursion is
structural.  `pre ++ [bvh]` is the node vector at entry (the current node is
its last element, as in the source).  `splitFuel_stable` below shows that
with fuel `ts.length` the fuel never runs out, so `Bvh.split` (fuel
`ts.length`) is the exact semantics of the source's recursion. -/
def splitFuel : ℕ → List Bvh → Bvh → List Triangle → List Bvh × List Triangle
  | 0, pre, bvh, ts => (pre ++ [bvh], ts)
  | fuel + 1, pre, bvh, ts =>
    let start_bvh_len := pre.length + 1
    let parent_cost := bvh_cost bvh.min_bound bvh.max_bound bvh.triangle_count
    let c := choose_split bvh ts
    if F.flt c.2.2 (F.mul (F.fin (9 / 10)) parent_cost) then
      let bl0 : Bvh := ⟨bvh.max_bound, bvh.min_bound, 0, 0, bvh.triangle_offset, 0⟩
      let br0 : Bvh := ⟨bvh.max_bound, bvh.min_bound, 0, 0, bvh.triangle_offset, 0⟩
      let acc := partitionTris (fun t => t.anyVertexBelow c.1 c.2.1) bl0 br0 ts
      let lc := acc.left.triangle_count
      let parent := { bvh with left_offset := start_bvh_len }
      let r1 := splitFuel fuel (pre ++ [parent]) acc.left (acc.ts.take lc)
      let bvhs2 := patchRight r1.1 (start_bvh_len - 1) r1.1.length
      let br1 := { acc.right with triangle_offset := bvh.triangle_offset + lc }
      let r2 := splitFuel fuel bvhs2 br1 (acc.ts.drop lc)
      (r2.1, r1.2 ++ r2.2)
    else
      (pre ++ [bvh], ts)

/-- `Bvh::split` on the node vector `pre ++ [bvh]` and the slice `ts`. -/
def split (pre : List Bvh) (bvh : Bvh) (ts : List Triangle) :
    List Bvh × List Triangle :=
  splitFuel ts.length pre bvh ts

/-- `Bvh::build`: compute the slice's AABB, push the root node for the
slice, then recursively split.  Returns the final node vector and the
reordered slice contents. -/
def build (bvhs : List Bvh) (ts : List Triangle) (triangle_offset : ℕ) :
    List Bvh × List Triangle :=
  let mm := tightAABB ts
  split bvhs ⟨mm.1, mm.2, 0, 0, triangle_offset, ts.length⟩ ts

end Bvh

/-- `Model::load` with the mesh's already-extracted triangle list in place
of the OBJ file (file parsing is an external collaborator): record the
current lengths of the global arrays, append the mesh's triangles, build its
BVH over the appended range, and return the new global arrays and the
`Model` record (`material_id` is the hardcoded `0` of the source). -/
def Model.load (triangles : List Triangle) (bvhs : List Bvh) (mesh : List Triangle) :
    List Triangle × List Bvh × Model :=
  let triangle_offset := triangles.length
  let bvh_index := bvhs.length
  let r := Bvh.build bvhs mesh triangle_offset
  (triangles ++ r.2, r.1, ⟨bvh_index, 0⟩)

/-- The scene-assembly loop of `LoadedModels::load`: process the meshes in
input order, threading the global triangle and node arrays and appending one
`Model` per mesh. -/
def loadModels (meshes : List (List Triangle)) :
    List Triangle × List Bvh × List Model :=
  meshes.foldl
    (fun st mesh =>
      let r := Model.load st.1 st.2.1 mesh
      (r.1, r.2.1, st.2.2 ++ [r.2.2]))
    ([], [], [])

namespace Bvh

/-- The split-acceptance test of `Bvh::split`: the best sampled cost is
strictly below `0.9` times the node's own cost. -/
def accept (bvh : Bvh) (ts : List Triangle) : Bool :=
  F.flt (choose_split bvh ts).2.2
    (F.mul (F.fin (9 / 10)) (bvh_cost bvh.min_bound bvh.max_bound bvh.triangle_count))

/-- The classifier of the split recorded by `choose_split`. -/
def bestClassifier (bvh : Bvh) (ts : List Triangle) : Triangle → Bool :=
  fun t => t.anyVertexBelow (choose_split bvh ts).1 (choose_split bvh ts).2.1

/-- Fold `growNode` over a triangle list (the incremental child growth of the
partition loop, abstracted over the processed prefix). -/
def growNodes (b : Bvh) (l : List Triangle) : Bvh := l.foldl growNode b

/-- Fold `growT` over a triangle list from an arbitrary initial bound pair. -/
def growBounds (mm : V3 × V3) (l : List Triangle) : V3 × V3 := l.foldl growT mm

/-- All vertices of a triangle list, in order. -/
def pts (ts : List Triangle) : List V3 := ts.flatMap (fun t => [t.v0, t.v1, t.v2])

/-- Sentinel/child-offset well-formedness of one node of a node array: it
either carries the leaf sentinel `left_offset = right_offset = 0`, or its
`left_offset` is its own index plus one, its `right_offset` lies strictly
beyond that and inside the array, and the two children partition its
triangle range. -/
def ChildrenOk (bvhs : List Bvh) (i : ℕ) : Prop :=
  ∀ nd, bvhs[i]? = some nd →
    (nd.left_offset = 0 ∧ nd.right_offset = 0) ∨
    (nd.left_offset = i + 1 ∧ i + 1 < nd.right_offset ∧ nd.right_offset < bvhs.length ∧
     ∃ lnd rnd, bvhs[i + 1]? = some lnd ∧ bvhs[nd.right_offset]? = some rnd ∧
       lnd.triangle_offset = nd.triangle_offset ∧
       rnd.triangle_offset = nd.triangle_offset + lnd.triangle_count ∧
       lnd.triangle_count + rnd.triangle_count = nd.triangle_count)

/-- Full specification of one `split` call on the node vector `pre ++ [bvh]`
and slice `ts`: the output appends a nonempty block of nodes after `pre`,
returns a permutation of the slice, keeps the current node's geometry and
range in the block's head, keeps every new node's range inside the call's
range, satisfies the child-offset relations at every new node, and — when
the slice is finite-coordinate and the node's bounds are tight — gives every
new node the tight AABB of its final triangle range. -/
def SplitOut (pre : List Bvh) (bvh : Bvh) (ts : List Triangle)
    (out : List Bvh × List Triangle) : Prop :=
  ∃ (new : List Bvh) (ts' : List Triangle),
    out = (pre ++ new, ts') ∧
    0 < new.length ∧
    List.Perm ts' ts ∧
    (∃ h0, new[0]? = some h0 ∧ h0.min_bound = bvh.min_bound ∧
      h0.max_bound = bvh.max_bound ∧
      h0.triangle_offset = bvh.triangle_offset ∧
      h0.triangle_count = bvh.triangle_count) ∧
    (∀ (j : ℕ) (nd : Bvh), new[j]? = some nd →
      bvh.triangle_offset ≤ nd.triangle_offset ∧
      nd.triangle_offset + nd.triangle_count ≤ bvh.triangle_offset + ts.length) ∧
    (∀ (j : ℕ) (nd : Bvh), new[j]? = some nd → ChildrenOk (pre ++ new) (pre.length + j)) ∧
    ((∀ t ∈ ts, t.Finite) →
      (bvh.min_bound, bvh.max_bound) = tightAABB ts →
      ∀ (j : ℕ) (nd : Bvh), new[j]? = some nd →
        (nd.min_bound, nd.max_bound) =
          tightAABB ((ts'.drop (nd.triangle_offset - bvh.triangle_offset)).take
            nd.triangle_count))

/-- The weaker leaf-sentinel exactness property of claim C9: the sentinel
`left_offset = right_offset = 0` holds exactly for the nodes that were never
split; a split node's `left_offset` is its own index plus one. -/
def SentinelOk (bvhs : List Bvh) : Prop :=
  ∀ i nd, bvhs[i]? = some nd →
    (nd.left_offset = 0 ∧ nd.right_offset = 0) ∨
    (nd.left_offset = i + 1 ∧ i + 1 < nd.right_offset ∧ nd.right_offset < bvhs.length)

end Bvh

/-! Round-to-nearest-even model for the one claim about precision.  `rnd p q`
rounds the rational `q` to a significand of `p` bits (unbounded exponent:
overflow and subnormal behaviour play no role at the values considered). -/

/-- Round a rational to an integer, ties to even. -/
def rne (q : ℚ) : ℤ :=
  let f := ⌊q⌋
  if q - f < 1 / 2 then f
  else if 1 / 2 < q - f then f + 1
  else if 2 ∣ f then f else f + 1

/-- Round `q` to a floating-point value with a `prec`-bit significand,
round-to-nearest-even. -/
def rnd (prec : ℕ) (q : ℚ) : ℚ :=
  if q = 0 then 0
  else
    let e : ℤ := Int.log 2 |q| - ((prec : ℤ) - 1)
    (rne (q / 2 ^ e) : ℚ) * 2 ^ e

/-- Rounding of an `f32` operation result. -/
def r32 (q : ℚ) : ℚ := rnd 24 q

/-- Rounding of an `f64` operation result. -/
def r64 (q : ℚ) : ℚ := rnd 53 q

/-- `Bvh::bvh_cost` with the rounding the source actually performs: the
extent subtractions, `dy + dz`, `dy * dz` and the fused `mul_add` are `f32`
operations (one rounding each); the conversions to `f64` are exact and only
the final multiplication by `count` is an `f64` operation. -/
def bvh_cost_impl (mn mx : ℚ × ℚ × ℚ) (count : ℕ) : ℚ :=
  let dx := r32 (mx.1 - mn.1)
  let dy := r32 (mx.2.1 - mn.2.1)
  let dz := r32 (mx.2.2 - mn.2.2)
  let surface_area := r32 (dx * r32 (dy + dz) + r32 (dy * dz))
  r64 ((count : ℚ) * surface_area)

/-- Modelled from the claim's wording: the same cost evaluated entirely in
double precision (every arithmetic operation, including the surface-area
arithmetic, rounded to `f64`). -/
def bvh_cost_double (mn mx : ℚ × ℚ × ℚ) (count : ℕ) : ℚ :=
  let dx := r64 (mx.1 - mn.1)
  let dy := r64 (mx.2.1 - mn.2.1)
  let dz := r64 (mx.2.2 - mn.2.2)
  let surface_area := r64 (r64 (r64 (dx * dy) + r64 (dy * dz)) + r64 (dx * dz))
  r64 ((count : ℚ) * surface_area)

/-- The single-precision surface area of a bound pair, as the source
computes it (the amended reading of the claim). -/
def surface_area32 (mn mx : ℚ × ℚ × ℚ) : ℚ :=
  let dx := r32 (mx.1 - mn.1)
  let dy := r32 (mx.2.1 - mn.2.1)
  let dz := r32 (mx.2.2 - mn.2.2)
  r32 (dx * r32 (dy + dz) + r32 (dy * dz))

/-! Concrete inputs used by witnesses and counterexamples. -/

/-- A finite point. -/
def pt (x y z : ℚ) : V3 := ⟨F.fin x, F.fin y, F.fin z⟩

/-- A triangle from three vertices (normal and UVs zeroed; they play no role
in BVH construction). -/
def tri (a b c : V3) : Triangle :=
  ⟨a, b, c, pt 0 0 0, ⟨F.fin 0, F.fin 0⟩, ⟨F.fin 0, F.fin 0⟩, ⟨F.fin 0, F.fin 0⟩⟩

/-- A small triangle near the origin. -/
def triA : Triangle := tri (pt 0 0 0) (pt 1 0 0) (pt 0 1 0)

/-- A small triangle near `x = 100`. -/
def triB : Triangle := tri (pt 100 0 0) (pt 101 0 0) (pt 100 1 0)

/-- A variant of `triB` with a different `y` extent (distinct record). -/
def triB2 : Triangle := tri (pt 100 0 0) (pt 101 0 0) (pt 100 2 0)

/-- A triangle near `x = 100` whose `z` coordinates are all `NaN`. -/
def triN : Triangle :=
  ⟨⟨F.fin 100, F.fin 0, F.nan⟩, ⟨F.fin 101, F.fin 0, F.nan⟩, ⟨F.fin 100, F.fin 1, F.nan⟩,
   pt 0 0 0, ⟨F.fin 0, F.fin 0⟩, ⟨F.fin 0, F.fin 0⟩, ⟨F.fin 0, F.fin 0⟩⟩

/-- Two spatially separated two-triangle clusters: the root split is
accepted and yields a three-node tree. -/
def exSplit : List Triangle := [triA, triA, triB, triB]

/-- The cluster example with the right-classified triangles first and last:
exposes the unstable right-side order of the in-place partition. -/
def exOrder : List Triangle := [triB, triA, triA, triB2]

/-- The cluster example whose right cluster has `NaN` z-coordinates:
the split is still accepted, and the right child's grown bounds differ from
the tight AABB of its range. -/
def exNaN : List Triangle := [triA, triA, triN, triN]

/-- A node with zero `triangle_count`, used as a partition child seed. -/
def zNode : Bvh := ⟨V3.vInf, V3.vNegInf, 0, 0, 0, 0⟩

/-- The right child node of the tree built over `exSplit`. -/
def exRightNode : Bvh := ⟨pt 100 0 0, pt 101 1 0, 0, 0, 2, 2⟩

/-- The root node `build` pushes for a slice: the slice's tight AABB, leaf
sentinel offsets, and the slice's offset and length. -/
def rootOf (ts : List Triangle) (off : ℕ) : Bvh :=
  ⟨(Bvh.tightAABB ts).1, (Bvh.tightAABB ts).2, 0, 0, off, ts.length⟩

/-- The child seed of the in-place partition: the parent's bounds inverted,
zero count. -/
def childInit (b : Bvh) : Bvh :=
  ⟨b.max_bound, b.min_bound, 0, 0, b.triangle_offset, 0⟩

/-- Scenario C, first mesh: three triangles near the origin. -/
def exMeshA : List Triangle := [triA, triA, triA]

/-- Scenario C, second mesh: three triangles near `x = 100`. -/
def exMeshB : List Triangle := [triB, triB, triB]

/-- The lower corner of the precision counterexample's box. -/
def mnC : ℚ × ℚ × ℚ := (0, 0, 0)

/-- The upper corner of the precision counterexample's box: extents are
`1`, `1` and `2⁻²⁹`. -/
def mxC : ℚ × ℚ × ℚ := (1, 1, 1 / 2 ^ 29)

/-! Basic lemmas about the embedded float operations. -/

namespace F

theorem flt_nan_left (y : F) : flt nan y = false := by cases y <;> rfl

theorem flt_nan_right (x : F) : flt x nan = false := by cases x <;> rfl

theorem flt_inf_true (y : F) : flt (inf true) y = false := by
  cases y <;> rfl

theorem ne_of_flt {x y : F} (h : flt x y = true) : x ≠ inf true ∧ x ≠ nan := by
  constructor
  · rintro rfl; rw [flt_inf_true] at h; cases h
  · rintro rfl; rw [flt_nan_left] at h; cases h

theorem nan_add (x : F) : add nan x = nan := by cases x <;> rfl

theorem add_nan (x : F) : add x nan = nan := by cases x <;> rfl

theorem fmin_right_comm (a u v : F) : fmin (fmin a u) v = fmin (fmin a v) u := by
  rcases a with _ | (_ | _) | qa <;> rcases u with _ | (_ | _) | qu <;>
    rcases v with _ | (_ | _) | qv <;>
    first
      | rfl
      | (simp only [fmin]
         simp [min_comm, min_left_comm, min_assoc, min_right_comm])

theorem fmax_right_comm (a u v : F) : fmax (fmax a u) v = fmax (fmax a v) u := by
  rcases a with _ | (_ | _) | qa <;> rcases u with _ | (_ | _) | qu <;>
    rcases v with _ | (_ | _) | qv <;>
    first
      | rfl
      | (simp only [fmax]
         simp [max_comm, max_left_comm, max_assoc])

end F

namespace Bvh

theorem growP_right_comm (mm : V3 × V3) (p q : V3) :
    growP (growP mm p) q = growP (growP mm q) p := by
  simp only [growP, Prod.mk.injEq, V3.mk.injEq]
  exact ⟨⟨F.fmin_right_comm .., F.fmin_right_comm .., F.fmin_right_comm ..⟩,
    F.fmax_right_comm .., F.fmax_right_comm .., F.fmax_right_comm ..⟩

theorem growT_growP (mm : V3 × V3) (p : V3) (t : Triangle) :
    growT (growP mm p) t = growP (growT mm t) p := by
  simp only [growT]
  rw [growP_right_comm mm p t.v0, growP_right_comm (growP mm t.v0) p t.v1,
    growP_right_comm (growP (growP mm t.v0) t.v1) p t.v2]

theorem growT_right_comm (mm : V3 × V3) (s t : Triangle) :
    growT (growT mm s) t = growT (growT mm t) s := by
  conv_lhs =>
    rw [show growT mm s = growP (growP (growP mm s.v0) s.v1) s.v2 from rfl]
  rw [growT_growP, growT_growP, growT_growP]
  rfl

theorem growBounds_perm {l l' : List Triangle} (h : List.Perm l l') (mm : V3 × V3) :
    growBounds mm l = growBounds mm l' :=
  List.Perm.foldl_eq' h (fun x _ y _ z => growT_right_comm z x y) mm

theorem tightAABB_perm {l l' : List Triangle} (h : List.Perm l l') :
    tightAABB l = tightAABB l' :=
  growBounds_perm h (V3.vInf, V3.vNegInf)

end Bvh

/-! Lemmas about the element-swap primitive. -/

namespace Bvh

theorem swapIdx_length {α : Type _} (l : List α) (i j : ℕ) :
    (swapIdx l i j).length = l.length := by
  unfold swapIdx
  cases h1 : l[i]? <;> cases h2 : l[j]? <;> simp

theorem swapIdx_getElem?_of_ne {α : Type _} {l : List α} {i j k : ℕ}
    (hki : k ≠ i) (hkj : k ≠ j) : (swapIdx l i j)[k]? = l[k]? := by
  unfold swapIdx
  cases h1 : l[i]? <;> cases h2 : l[j]? <;>
    simp [List.getElem?_set_ne (Ne.symm hkj), List.getElem?_set_ne (Ne.symm hki)]

theorem swapIdx_getElem?_right {α : Type _} {l : List α} {i j : ℕ}
    (hi : i < l.length) (hj : j < l.length) : (swapIdx l i j)[j]? = l[i]? := by
  unfold swapIdx
  rw [List.getElem?_eq_getElem hi, List.getElem?_eq_getElem hj]
  simp [List.getElem?_set_self', hj]

theorem swapIdx_take {α : Type _} {l : List α} {i j : ℕ} (hj : j ≤ i) :
    (swapIdx l i j).take j = l.take j := by
  apply List.ext_getElem?
  intro k
  rw [List.getElem?_take, List.getElem?_take]
  by_cases hk : k < j
  · rw [if_pos hk, if_pos hk,
      swapIdx_getElem?_of_ne (by omega) (by omega)]
  · rw [if_neg hk, if_neg hk]

theorem swapIdx_drop {α : Type _} {l : List α} {i j : ℕ} (hj : j ≤ i) :
    (swapIdx l i j).drop (i + 1) = l.drop (i + 1) := by
  apply List.ext_getElem?
  intro k
  rw [List.getElem?_drop, List.getElem?_drop,
    swapIdx_getElem?_of_ne (by omega) (by omega)]

theorem set_cons_perm {α : Type _} (l : List α) (i : ℕ) (h : i < l.length) (a : α) :
    List.Perm (l.get ⟨i, h⟩ :: l.set i a) (a :: l) := by
  induction l generalizing i with
  | nil => simp at h
  | cons x t ih =>
    cases i with
    | zero => exact List.Perm.swap a x t
    | succ n =>
      have hn : n < t.length := by simpa using h
      refine List.Perm.trans (List.Perm.swap x (t.get ⟨n, hn⟩) (t.set n a)) ?_
      exact List.Perm.trans (List.Perm.cons x (ih n hn)) (List.Perm.swap a x t)

theorem set_set_perm {α : Type _} (l : List α) (i j : ℕ) (hi : i < l.length)
    (hj : j < l.length) :
    List.Perm ((l.set i (l.get ⟨j, hj⟩)).set j (l.get ⟨i, hi⟩)) l := by
  induction l generalizing i j with
  | nil => simp at hi
  | cons x t ih =>
    cases i with
    | zero =>
      cases j with
      | zero => simp
      | succ m =>
        have hm : m < t.length := by simpa using hj
        exact set_cons_perm t m hm x
    | succ n =>
      have hn : n < t.length := by simpa using hi
      cases j with
      | zero => exact set_cons_perm t n hn x
      | succ m =>
        have hm : m < t.length := by simpa using hj
        exact List.Perm.cons x (ih n m hn hm)

theorem swapIdx_perm {α : Type _} (l : List α) (i j : ℕ) (hi : i < l.length)
    (hj : j < l.length) : List.Perm (swapIdx l i j) l := by
  unfold swapIdx
  rw [List.getElem?_eq_getElem hi, List.getElem?_eq_getElem hj]
  exact set_set_perm l i j hi hj

/-! Lemmas about the incremental child-node growth. -/

theorem growNode_left_offset (b : Bvh) (t : Triangle) :
    (growNode b t).left_offset = b.left_offset := rfl

theorem growNode_right_offset (b : Bvh) (t : Triangle) :
    (growNode b t).right_offset = b.right_offset := rfl

theorem growNode_triangle_offset (b : Bvh) (t : Triangle) :
    (growNode b t).triangle_offset = b.triangle_offset := rfl

theorem growNode_count (b : Bvh) (t : Triangle) :
    (growNode b t).triangle_count = b.triangle_count + 1 := rfl

theorem growNodes_left_offset (b : Bvh) (l : List Triangle) :
    (growNodes b l).left_offset = b.left_offset := by
  induction l generalizing b with
  | nil => rfl
  | cons t l ih => exact (ih (growNode b t)).trans rfl

theorem growNodes_right_offset (b : Bvh) (l : List Triangle) :
    (growNodes b l).right_offset = b.right_offset := by
  induction l generalizing b with
  | nil => rfl
  | cons t l ih => exact (ih (growNode b t)).trans rfl

theorem growNodes_triangle_offset (b : Bvh) (l : List Triangle) :
    (growNodes b l).triangle_offset = b.triangle_offset := by
  induction l generalizing b with
  | nil => rfl
  | cons t l ih => exact (ih (growNode b t)).trans rfl

theorem growNodes_count (b : Bvh) (l : List Triangle) :
    (growNodes b l).triangle_count = b.triangle_count + l.length := by
  induction l generalizing b with
  | nil => rfl
  | cons t l ih =>
    show (growNodes (growNode b t) l).triangle_count = _
    rw [ih (growNode b t), growNode_count]
    simp
    omega

theorem growNodes_bounds (b : Bvh) (l : List Triangle) :
    ((growNodes b l).min_bound, (growNodes b l).max_bound) =
      growBounds (b.min_bound, b.max_bound) l := by
  induction l generalizing b with
  | nil => rfl
  | cons t l ih =>
    show ((growNodes (growNode b t) l).min_bound,
      (growNodes (growNode b t) l).max_bound) = _
    rw [ih (growNode b t)]
    rfl

theorem growNodes_append (b : Bvh) (l : List Triangle) (t : Triangle) :
    growNodes b (l ++ [t]) = growNode (growNodes b l) t := by
  simp [growNodes, List.foldl_append]

/-! The partition loop invariant: after the whole pass, the left block is the
stable filter of the left-classified triangles, the slice is a permutation
of its input, and the two child nodes are exactly the input child nodes
grown by their classified triangles. -/

theorem length_filter_add (p : Triangle → Bool) (ts : List Triangle) :
    (ts.filter p).length + (ts.filter (fun t => !(p t))).length = ts.length := by
  have := (List.filter_append_perm p ts).length_eq
  simpa using this

theorem partLoop_spec (p : Triangle → Bool) (orig : List Triangle) (bl br : Bvh)
    (hbl : bl.triangle_count = 0) :
    ∀ k i acc,
      i + k = orig.length →
      acc.ts.length = orig.length →
      List.Perm acc.ts orig →
      acc.ts.drop i = orig.drop i →
      acc.left = growNodes bl ((orig.take i).filter p) →
      acc.right = growNodes br ((orig.take i).filter (fun t => !(p t))) →
      acc.ts.take acc.left.triangle_count = (orig.take i).filter p →
      (partLoop p i k acc).ts.length = orig.length ∧
      List.Perm (partLoop p i k acc).ts orig ∧
      (partLoop p i k acc).left = growNodes bl (orig.filter p) ∧
      (partLoop p i k acc).right = growNodes br (orig.filter (fun t => !(p t))) ∧
      (partLoop p i k acc).ts.take (partLoop p i k acc).left.triangle_count =
        orig.filter p := by
  intro k
  induction k with
  | zero =>
    intro i acc h0 h1 h2 h3 h4 h5 h6
    have hi : i = orig.length := by omega
    subst hi
    simp only [partLoop]
    simp only [List.take_length] at h4 h5 h6
    exact ⟨h1, h2, h4, h5, h6⟩
  | succ k ih =>
    intro i acc h0 h1 h2 h3 h4 h5 h6
    have hi : i < orig.length := by omega
    have hi' : i < acc.ts.length := by omega
    -- the left slot count so far
    have hlc : acc.left.triangle_count = ((orig.take i).filter p).length := by
      rw [h4, growNodes_count, hbl]; omega
    have hlci : acc.left.triangle_count ≤ i := by
      have h7 := List.length_filter_le p (orig.take i)
      have h8 := List.length_take_le i orig
      have h9 : (orig.take i).length = min i orig.length := List.length_take i orig
      omega
    have hlcl : acc.left.triangle_count < acc.ts.length := by omega
    obtain ⟨ti, hti⟩ : ∃ x, orig[i]? = some x :=
      ⟨orig.get ⟨i, hi⟩, List.getElem?_eq_getElem hi⟩
    have hgi : acc.ts[i]? = orig[i]? := by
      have := congrArg (fun l => l[0]?) h3
      simpa [List.getElem?_drop] using this
    have hA : acc.ts.getD i default = ti := by
      rw [List.getD_eq_getElem?_getD, hgi, hti]; rfl
    have hB : (swapIdx acc.ts i acc.left.triangle_count).getD acc.left.triangle_count
        default = ti := by
      rw [List.getD_eq_getElem?_getD, swapIdx_getElem?_right hi' hlcl, hgi, hti]; rfl
    have htake1 : (swapIdx acc.ts i acc.left.triangle_count).take
        acc.left.triangle_count = (orig.take i).filter p :=
      (swapIdx_take hlci).trans h6
    have hdrop1 : (swapIdx acc.ts i acc.left.triangle_count).drop (i + 1) =
        orig.drop (i + 1) := by
      rw [swapIdx_drop hlci]
      have := congrArg (List.drop 1) h3
      simpa [List.drop_drop, Nat.add_comm] using this
    have hlen1 : (swapIdx acc.ts i acc.left.triangle_count).length = orig.length := by
      rw [swapIdx_length]; exact h1
    have hperm1 : List.Perm (swapIdx acc.ts i acc.left.triangle_count) orig :=
      (swapIdx_perm _ _ _ hi' hlcl).trans h2
    have htakesucc : orig.take (i + 1) = orig.take i ++ [ti] := by
      rw [List.take_succ, hti]; rfl
    have hstep : partLoop p i (k + 1) acc = partLoop p (i + 1) k (partStep p acc i) := rfl
    rw [hstep]
    cases hp : p ti with
    | true =>
      have hps : partStep p acc i =
          ⟨swapIdx acc.ts i acc.left.triangle_count,
           growNode acc.left ti, acc.right⟩ := by
        simp only [partStep, hA, hB, hp, if_true]
      rw [hps]
      refine ih (i + 1) _ (by omega) hlen1 hperm1 hdrop1 ?_ ?_ ?_
      · rw [htakesucc, List.filter_append, h4, ← growNodes_append]
        simp [hp]
      · rw [htakesucc, List.filter_append, h5]
        simp [hp]
      · show (swapIdx acc.ts i acc.left.triangle_count).take
            (growNode acc.left ti).triangle_count = _
        rw [growNode_count, List.take_succ, htake1, htakesucc, List.filter_append]
        have : (swapIdx acc.ts i acc.left.triangle_count)[acc.left.triangle_count]? =
            some ti := by rw [swapIdx_getElem?_right hi' hlcl, hgi, hti]
        rw [this]
        simp [hp]
    | false =>
      have hps : partStep p acc i =
          ⟨swapIdx acc.ts i acc.left.triangle_count,
           acc.left, growNode acc.right ti⟩ := by
        simp only [partStep, hA, hB, hp]
        rfl
      rw [hps]
      refine ih (i + 1) _ (by omega) hlen1 hperm1 hdrop1 ?_ ?_ ?_
      · rw [htakesucc, List.filter_append, h4]
        simp [hp]
      · rw [htakesucc, List.filter_append, h5, ← growNodes_append]
        simp [hp]
      · show (swapIdx acc.ts i acc.left.triangle_count).take
            acc.left.triangle_count = _
        rw [htake1, htakesucc, List.filter_append]
        simp [hp]

theorem partitionTris_spec (p : Triangle → Bool) (ts : List Triangle) (bl br : Bvh)
    (hbl : bl.triangle_count = 0) :
    (partitionTris p bl br ts).ts.length = ts.length ∧
    List.Perm (partitionTris p bl br ts).ts ts ∧
    (partitionTris p bl br ts).left = growNodes bl (ts.filter p) ∧
    (partitionTris p bl br ts).right = growNodes br (ts.filter (fun t => !(p t))) ∧
    (partitionTris p bl br ts).ts.take (partitionTris p bl br ts).left.triangle_count =
      ts.filter p := by
  refine partLoop_spec p ts bl br hbl ts.length 0 ⟨ts, bl, br⟩ (by omega) rfl
    (List.Perm.refl _) rfl ?_ ?_ ?_
  · simp [growNodes]
  · simp [growNodes]
  · show ts.take bl.triangle_count = _
    rw [hbl]
    simp

/-! Lemmas about `evaluate_split` and `choose_split`: a candidate that puts
every triangle on one side has `NaN` cost, and the tracked best cost is
either the initial `+∞` or the cost of the recorded candidate. -/

theorem eval_foldl_proj (axis : ℕ) (pos : F) (ts : List Triangle) (a : EvalAcc) :
    (ts.foldl (evalStep axis pos) a).countL =
      a.countL + (ts.filter (fun t => t.anyVertexBelow axis pos)).length ∧
    (ts.foldl (evalStep axis pos) a).countR =
      a.countR + (ts.filter (fun t => !(t.anyVertexBelow axis pos))).length ∧
    ((ts.foldl (evalStep axis pos) a).minL, (ts.foldl (evalStep axis pos) a).maxL) =
      growBounds (a.minL, a.maxL) (ts.filter (fun t => t.anyVertexBelow axis pos)) ∧
    ((ts.foldl (evalStep axis pos) a).minR, (ts.foldl (evalStep axis pos) a).maxR) =
      growBounds (a.minR, a.maxR) (ts.filter (fun t => !(t.anyVertexBelow axis pos))) := by
  induction ts generalizing a with
  | nil => exact ⟨rfl, rfl, rfl, rfl⟩
  | cons t l ih =>
    simp only [List.foldl_cons]
    cases hp : t.anyVertexBelow axis pos
    · have hs : evalStep axis pos a t =
          ⟨a.minL, a.maxL, (growT (a.minR, a.maxR) t).1, (growT (a.minR, a.maxR) t).2,
           a.countL, a.countR + 1⟩ := by
        simp only [evalStep, hp]; rfl
      rw [hs]
      obtain ⟨ih1, ih2, ih3, ih4⟩ := ih
        ⟨a.minL, a.maxL, (growT (a.minR, a.maxR) t).1, (growT (a.minR, a.maxR) t).2,
         a.countL, a.countR + 1⟩
      refine ⟨?_, ?_, ?_, ?_⟩
      · rw [ih1]; simp [hp]
      · rw [ih2]; simp [hp]; omega
      · rw [ih3]; simp [hp]
      · rw [ih4]; simp [hp, growBounds, Prod.mk.eta]
    · have hs : evalStep axis pos a t =
          ⟨(growT (a.minL, a.maxL) t).1, (growT (a.minL, a.maxL) t).2, a.minR, a.maxR,
           a.countL + 1, a.countR⟩ := by
        simp only [evalStep, hp]; rfl
      rw [hs]
      obtain ⟨ih1, ih2, ih3, ih4⟩ := ih
        ⟨(growT (a.minL, a.maxL) t).1, (growT (a.minL, a.maxL) t).2, a.minR, a.maxR,
         a.countL + 1, a.countR⟩
      refine ⟨?_, ?_, ?_, ?_⟩
      · rw [ih1]; simp [hp]; omega
      · rw [ih2]; simp [hp]
      · rw [ih3]; simp [hp, growBounds, Prod.mk.eta]
      · rw [ih4]; simp [hp]

theorem bvh_cost_degenerate : bvh_cost V3.vInf V3.vNegInf 0 = F.nan := by decide

theorem evaluate_split_nan (axis : ℕ) (pos : F) (ts : List Triangle)
    (h : ts.filter (fun t => t.anyVertexBelow axis pos) = [] ∨
         ts.filter (fun t => !(t.anyVertexBelow axis pos)) = []) :
    evaluate_split axis pos ts = F.nan := by
  simp only [evaluate_split]
  obtain ⟨h1, h2, h3, h4⟩ := eval_foldl_proj axis pos ts
    ⟨V3.vInf, V3.vNegInf, V3.vInf, V3.vNegInf, 0, 0⟩
  rcases h with h | h
  · rw [h] at h1 h3
    have hmin := congrArg Prod.fst h3
    have hmax := congrArg Prod.snd h3
    simp [growBounds] at hmin hmax h1
    rw [hmin, hmax, h1, bvh_cost_degenerate, F.nan_add]
  · rw [h] at h2 h4
    have hmin := congrArg Prod.fst h4
    have hmax := congrArg Prod.snd h4
    simp [growBounds] at hmin hmax h2
    rw [hmin, hmax, h2, bvh_cost_degenerate, F.add_nan]

theorem foldl_pres {σ β : Type _} {P : σ → Prop} {f : σ → β → σ}
    (hf : ∀ s x, P s → P (f s x)) :
    ∀ (l : List β) (s : σ), P s → P (l.foldl f s) := by
  intro l
  induction l with
  | nil => intro s hs; exact hs
  | cons x l ih => intro s hs; exact ih (f s x) (hf s x hs)

theorem choose_split_small (b : Bvh) (ts : List Triangle)
    (h : ts.length ≤ MIN_TRIANGLES) :
    choose_split b ts = (0, F.fin 0, F.inf true) := by
  unfold choose_split
  simp [h]

theorem choose_split_spec (b : Bvh) (ts : List Triangle) :
    (choose_split b ts).2.2 = F.inf true ∨
    ((choose_split b ts).2.2 =
        evaluate_split (choose_split b ts).1 (choose_split b ts).2.1 ts ∧
      MIN_TRIANGLES < ts.length) := by
  by_cases h : ts.length ≤ MIN_TRIANGLES
  · rw [choose_split_small b ts h]
    exact Or.inl rfl
  · have hlen : MIN_TRIANGLES < ts.length := by omega
    unfold choose_split
    rw [if_neg h]
    have key : ∀ st : ℕ × F × F,
        (st.2.2 = F.inf true ∨ st.2.2 = evaluate_split st.1 st.2.1 ts) →
        ∀ res : ℕ × F × F,
          res = (List.range 3).foldl
            (fun st axis =>
              (List.range SPLIT_TEST_COUNT).foldl (chooseStep b ts axis) st) st →
          (res.2.2 = F.inf true ∨ res.2.2 = evaluate_split res.1 res.2.1 ts) := by
      intro st hst res hres
      subst hres
      refine foldl_pres
        (P := fun st : ℕ × F × F =>
          st.2.2 = F.inf true ∨ st.2.2 = evaluate_split st.1 st.2.1 ts) ?_
        (List.range 3) st hst
      intro s axis hs
      refine foldl_pres
        (P := fun st : ℕ × F × F =>
          st.2.2 = F.inf true ∨ st.2.2 = evaluate_split st.1 st.2.1 ts) ?_
        (List.range SPLIT_TEST_COUNT) s hs
      intro s' i hs'
      simp only [chooseStep]
      split
      · exact Or.inr rfl
      · exact hs'
    have := key (0, F.fin 0, F.inf true) (Or.inl rfl) _ rfl
    rcases this with h1 | h1
    · exact Or.inl h1
    · exact Or.inr ⟨h1, hlen⟩

theorem accept_facts {b : Bvh} {ts : List Triangle} {θ : F}
    (h : F.flt (choose_split b ts).2.2 θ = true) :
    MIN_TRIANGLES < ts.length ∧
    0 < (ts.filter (fun t =>
      t.anyVertexBelow (choose_split b ts).1 (choose_split b ts).2.1)).length ∧
    (ts.filter (fun t =>
      t.anyVertexBelow (choose_split b ts).1 (choose_split b ts).2.1)).length <
      ts.length := by
  obtain ⟨hninf, hnnan⟩ := F.ne_of_flt h
  rcases choose_split_spec b ts with hc | ⟨heval, hlen⟩
  · exact absurd hc hninf
  · refine ⟨hlen, ?_, ?_⟩
    · by_contra hz
      have hflt : ts.filter (fun t =>
          t.anyVertexBelow (choose_split b ts).1 (choose_split b ts).2.1) = [] := by
        have : (ts.filter (fun t =>
            t.anyVertexBelow (choose_split b ts).1 (choose_split b ts).2.1)).length = 0 := by
          omega
        exact List.length_eq_zero.mp this
      exact hnnan (heval.trans (evaluate_split_nan _ _ _ (Or.inl hflt)))
    · have hle := List.length_filter_le (fun t =>
        t.anyVertexBelow (choose_split b ts).1 (choose_split b ts).2.1) ts
      rcases Nat.lt_or_ge (ts.filter (fun t =>
          t.anyVertexBelow (choose_split b ts).1 (choose_split b ts).2.1)).length
          ts.length with hlt | hge
      · exact hlt
      · exfalso
        have heq : (ts.filter (fun t =>
            t.anyVertexBelow (choose_split b ts).1 (choose_split b ts).2.1)).length =
            ts.length := by omega
        have hzero : (ts.filter (fun t =>
            !(t.anyVertexBelow (choose_split b ts).1 (choose_split b ts).2.1))).length
            = 0 := by
          have := length_filter_add (fun t =>
            t.anyVertexBelow (choose_split b ts).1 (choose_split b ts).2.1) ts
          omega
        exact hnnan (heval.trans (evaluate_split_nan _ _ _
          (Or.inr (List.length_eq_zero.mp hzero))))

/-! The geometric fact behind bound tightness: growing a child box from the
parent's inverted bounds gives the same result as growing it from the
inverted infinities, because every child coordinate is dominated by the
parent's tight bounds.  Holds when all coordinates are finite. -/

theorem tightAABB_eq (ts : List Triangle) :
    tightAABB ts = growBounds (V3.vInf, V3.vNegInf) ts := rfl

theorem foldl_fmin_fin (l : List F) (h : ∀ x ∈ l, x.isFin = true) (a : ℚ) :
    l.foldl F.fmin (F.fin a) = F.fin ((l.map F.toQ).foldl min a) := by
  induction l generalizing a with
  | nil => rfl
  | cons x t ih =>
    obtain ⟨q, rfl⟩ : ∃ q, x = F.fin q := by
      have := h x (List.mem_cons_self x t)
      cases x <;> simp [F.isFin] at this ⊢
    simp only [List.foldl_cons, List.map_cons]
    exact ih (fun y hy => h y (List.mem_cons_of_mem _ hy)) (min a q)

theorem foldl_fmax_fin (l : List F) (h : ∀ x ∈ l, x.isFin = true) (a : ℚ) :
    l.foldl F.fmax (F.fin a) = F.fin ((l.map F.toQ).foldl max a) := by
  induction l generalizing a with
  | nil => rfl
  | cons x t ih =>
    obtain ⟨q, rfl⟩ : ∃ q, x = F.fin q := by
      have := h x (List.mem_cons_self x t)
      cases x <;> simp [F.isFin] at this ⊢
    simp only [List.foldl_cons, List.map_cons]
    exact ih (fun y hy => h y (List.mem_cons_of_mem _ hy)) (max a q)

theorem foldl_fmin_inf (x : F) (t : List F) (h : ∀ y ∈ x :: t, y.isFin = true) :
    (x :: t).foldl F.fmin (F.inf true) =
      F.fin ((t.map F.toQ).foldl min (F.toQ x)) := by
  obtain ⟨q, rfl⟩ : ∃ q, x = F.fin q := by
    have := h x (List.mem_cons_self x t)
    cases x <;> simp [F.isFin] at this ⊢
  simp only [List.foldl_cons]
  exact foldl_fmin_fin t (fun y hy => h y (List.mem_cons_of_mem _ hy)) q

theorem foldl_fmax_neginf (x : F) (t : List F) (h : ∀ y ∈ x :: t, y.isFin = true) :
    (x :: t).foldl F.fmax (F.inf false) =
      F.fin ((t.map F.toQ).foldl max (F.toQ x)) := by
  obtain ⟨q, rfl⟩ : ∃ q, x = F.fin q := by
    have := h x (List.mem_cons_self x t)
    cases x <;> simp [F.isFin] at this ⊢
  simp only [List.foldl_cons]
  exact foldl_fmax_fin t (fun y hy => h y (List.mem_cons_of_mem _ hy)) q

theorem le_foldl_max_seed (ys : List ℚ) (a : ℚ) : a ≤ ys.foldl max a := by
  induction ys generalizing a with
  | nil => exact le_refl a
  | cons y t ih => exact le_trans (le_max_left a y) (ih (max a y))

theorem le_foldl_max_mem (ys : List ℚ) (a y : ℚ) (hy : y ∈ ys) :
    y ≤ ys.foldl max a := by
  induction ys generalizing a with
  | nil => cases hy
  | cons z t ih =>
    rcases List.mem_cons.mp hy with rfl | hy'
    · exact le_trans (le_max_right a y) (le_foldl_max_seed t (max a y))
    · exact ih (max a z) hy'

theorem foldl_min_le_seed (ys : List ℚ) (a : ℚ) : ys.foldl min a ≤ a := by
  induction ys generalizing a with
  | nil => exact le_refl a
  | cons y t ih => exact le_trans (ih (min a y)) (min_le_left a y)

theorem foldl_min_le_mem (ys : List ℚ) (a y : ℚ) (hy : y ∈ ys) :
    ys.foldl min a ≤ y := by
  induction ys generalizing a with
  | nil => cases hy
  | cons z t ih =>
    rcases List.mem_cons.mp hy with rfl | hy'
    · exact le_trans (foldl_min_le_seed t (min a y)) (min_le_right a y)
    · exact ih (min a z) hy'

theorem foldl_min_seed_swallow {q a : ℚ} (h : q ≤ a) (qs : List ℚ) :
    (q :: qs).foldl min a = qs.foldl min q := by
  simp [List.foldl_cons, min_eq_right h]

theorem foldl_max_seed_swallow {q a : ℚ} (h : a ≤ q) (qs : List ℚ) :
    (q :: qs).foldl max a = qs.foldl max q := by
  simp [List.foldl_cons, max_eq_right h]

theorem fmin_from_fmax (L S : List F) (hL : ∀ x ∈ L, x.isFin = true)
    (hsub : ∀ x ∈ S, x ∈ L) (hS : S ≠ []) :
    S.foldl F.fmin (L.foldl F.fmax (F.inf false)) = S.foldl F.fmin (F.inf true) := by
  obtain ⟨x, t, rfl⟩ : ∃ x t, S = x :: t := by
    cases S with
    | nil => exact absurd rfl hS
    | cons x t => exact ⟨x, t, rfl⟩
  obtain ⟨l0, lt, rfl⟩ : ∃ l0 lt, L = l0 :: lt := by
    cases L with
    | nil => exact absurd (hsub x (List.mem_cons_self x t)) (List.not_mem_nil x)
    | cons l0 lt => exact ⟨l0, lt, rfl⟩
  have hSfin : ∀ y ∈ x :: t, F.isFin y = true := fun y hy => hL y (hsub y hy)
  rw [foldl_fmax_neginf l0 lt hL, foldl_fmin_inf x t hSfin]
  rw [foldl_fmin_fin (x :: t) hSfin]
  congr 1
  have hxq : F.toQ x ≤ (lt.map F.toQ).foldl max (F.toQ l0) := by
    rcases List.mem_cons.mp (hsub x (List.mem_cons_self x t)) with hx0 | hxlt
    · rw [hx0]; exact le_foldl_max_seed _ _
    · exact le_foldl_max_mem _ _ _ (List.mem_map_of_mem F.toQ hxlt)
  rw [List.map_cons, foldl_min_seed_swallow hxq]

theorem fmax_from_fmin (L S : List F) (hL : ∀ x ∈ L, x.isFin = true)
    (hsub : ∀ x ∈ S, x ∈ L) (hS : S ≠ []) :
    S.foldl F.fmax (L.foldl F.fmin (F.inf true)) = S.foldl F.fmax (F.inf false) := by
  obtain ⟨x, t, rfl⟩ : ∃ x t, S = x :: t := by
    cases S with
    | nil => exact absurd rfl hS
    | cons x t => exact ⟨x, t, rfl⟩
  obtain ⟨l0, lt, rfl⟩ : ∃ l0 lt, L = l0 :: lt := by
    cases L with
    | nil => exact absurd (hsub x (List.mem_cons_self x t)) (List.not_mem_nil x)
    | cons l0 lt => exact ⟨l0, lt, rfl⟩
  have hSfin : ∀ y ∈ x :: t, F.isFin y = true := fun y hy => hL y (hsub y hy)
  rw [foldl_fmin_inf l0 lt hL, foldl_fmax_neginf x t hSfin]
  rw [foldl_fmax_fin (x :: t) hSfin]
  congr 1
  have hxq : (lt.map F.toQ).foldl min (F.toQ l0) ≤ F.toQ x := by
    rcases List.mem_cons.mp (hsub x (List.mem_cons_self x t)) with hx0 | hxlt
    · rw [hx0]; exact foldl_min_le_seed _ _
    · exact foldl_min_le_mem _ _ _ (List.mem_map_of_mem F.toQ hxlt)
  rw [List.map_cons, foldl_max_seed_swallow hxq]

theorem growBounds_pts (mm : V3 × V3) (ts : List Triangle) :
    growBounds mm ts = (pts ts).foldl growP mm := by
  induction ts generalizing mm with
  | nil => rfl
  | cons t l ih =>
    show growBounds (growT mm t) l = _
    rw [ih (growT mm t)]
    rfl

theorem foldl_growP_components (l : List V3) (mm : V3 × V3) :
    l.foldl growP mm =
      (⟨(l.map V3.x).foldl F.fmin mm.1.x, (l.map V3.y).foldl F.fmin mm.1.y,
        (l.map V3.z).foldl F.fmin mm.1.z⟩,
       ⟨(l.map V3.x).foldl F.fmax mm.2.x, (l.map V3.y).foldl F.fmax mm.2.y,
        (l.map V3.z).foldl F.fmax mm.2.z⟩) := by
  induction l generalizing mm with
  | nil =>
    show mm = _
    rfl
  | cons p l ih =>
    show l.foldl growP (growP mm p) = _
    rw [ih (growP mm p)]
    rfl

theorem pts_fin {ts : List Triangle} (hfin : ∀ t ∈ ts, t.Finite) :
    ∀ v ∈ pts ts, v.Finite := by
  intro v hv
  obtain ⟨t, ht, hvt⟩ := List.mem_flatMap.mp hv
  obtain ⟨h0, h1, h2⟩ := hfin t ht
  simp only [List.mem_cons, List.not_mem_nil, or_false] at hvt
  rcases hvt with rfl | rfl | rfl
  · exact h0
  · exact h1
  · exact h2

theorem pts_sub {S ts : List Triangle} (hsub : ∀ t ∈ S, t ∈ ts) :
    ∀ v ∈ pts S, v ∈ pts ts := by
  intro v hv
  obtain ⟨t, ht, hvt⟩ := List.mem_flatMap.mp hv
  exact List.mem_flatMap.mpr ⟨t, hsub t ht, hvt⟩

theorem pts_ne_nil {S : List Triangle} (hS : S ≠ []) : pts S ≠ [] := by
  cases S with
  | nil => exact absurd rfl hS
  | cons t l => simp [pts]

theorem grow_from_parent (ts S : List Triangle)
    (hfin : ∀ t ∈ ts, t.Finite) (hsub : ∀ t ∈ S, t ∈ ts) (hS : S ≠ []) :
    growBounds ((tightAABB ts).2, (tightAABB ts).1) S = tightAABB S := by
  have hpf := pts_fin hfin
  have hps := pts_sub hsub
  have hpS := pts_ne_nil hS
  have hxf : ∀ q ∈ (pts ts).map V3.x, F.isFin q = true := by
    intro q hq; obtain ⟨v, hv, rfl⟩ := List.mem_map.mp hq; exact (hpf v hv).1
  have hyf : ∀ q ∈ (pts ts).map V3.y, F.isFin q = true := by
    intro q hq; obtain ⟨v, hv, rfl⟩ := List.mem_map.mp hq; exact (hpf v hv).2.1
  have hzf : ∀ q ∈ (pts ts).map V3.z, F.isFin q = true := by
    intro q hq; obtain ⟨v, hv, rfl⟩ := List.mem_map.mp hq; exact (hpf v hv).2.2
  have hxs : ∀ q ∈ (pts S).map V3.x, q ∈ (pts ts).map V3.x := by
    intro q hq; obtain ⟨v, hv, rfl⟩ := List.mem_map.mp hq
    exact List.mem_map_of_mem V3.x (hps v hv)
  have hys : ∀ q ∈ (pts S).map V3.y, q ∈ (pts ts).map V3.y := by
    intro q hq; obtain ⟨v, hv, rfl⟩ := List.mem_map.mp hq
    exact List.mem_map_of_mem V3.y (hps v hv)
  have hzs : ∀ q ∈ (pts S).map V3.z, q ∈ (pts ts).map V3.z := by
    intro q hq; obtain ⟨v, hv, rfl⟩ := List.mem_map.mp hq
    exact List.mem_map_of_mem V3.z (hps v hv)
  have hmS : ∀ pr : V3 → F, (pts S).map pr ≠ [] := by
    intro pr h
    exact hpS (List.map_eq_nil_iff.mp h)
  have hT := foldl_growP_components (pts ts) (V3.vInf, V3.vNegInf)
  have h2x : (tightAABB ts).2.x = ((pts ts).map V3.x).foldl F.fmax (F.inf false) := by
    rw [tightAABB_eq, growBounds_pts, hT]
    rfl
  have h2y : (tightAABB ts).2.y = ((pts ts).map V3.y).foldl F.fmax (F.inf false) := by
    rw [tightAABB_eq, growBounds_pts, hT]
    rfl
  have h2z : (tightAABB ts).2.z = ((pts ts).map V3.z).foldl F.fmax (F.inf false) := by
    rw [tightAABB_eq, growBounds_pts, hT]
    rfl
  have h1x : (tightAABB ts).1.x = ((pts ts).map V3.x).foldl F.fmin (F.inf true) := by
    rw [tightAABB_eq, growBounds_pts, hT]
    rfl
  have h1y : (tightAABB ts).1.y = ((pts ts).map V3.y).foldl F.fmin (F.inf true) := by
    rw [tightAABB_eq, growBounds_pts, hT]
    rfl
  have h1z : (tightAABB ts).1.z = ((pts ts).map V3.z).foldl F.fmin (F.inf true) := by
    rw [tightAABB_eq, growBounds_pts, hT]
    rfl
  rw [growBounds_pts, foldl_growP_components (pts S), tightAABB_eq S, growBounds_pts,
    foldl_growP_components (pts S)]
  simp only [Prod.mk.injEq, V3.mk.injEq, V3.vInf, V3.vNegInf]
  rw [h2x, h2y, h2z, h1x, h1y, h1z]
  exact ⟨⟨fmin_from_fmax _ _ hxf hxs (hmS V3.x),
          fmin_from_fmax _ _ hyf hys (hmS V3.y),
          fmin_from_fmax _ _ hzf hzs (hmS V3.z)⟩,
         fmax_from_fmin _ _ hxf hxs (hmS V3.x),
         fmax_from_fmin _ _ hyf hys (hmS V3.y),
         fmax_from_fmin _ _ hzf hzs (hmS V3.z)⟩

/-! Unfolding and basic consequences of `splitFuel`. -/

theorem splitFuel_succ (fuel : ℕ) (pre : List Bvh) (bvh : Bvh) (ts : List Triangle) :
    splitFuel (fuel + 1) pre bvh ts =
      if accept bvh ts = true then
        let acc := partitionTris (bestClassifier bvh ts)
          ⟨bvh.max_bound, bvh.min_bound, 0, 0, bvh.triangle_offset, 0⟩
          ⟨bvh.max_bound, bvh.min_bound, 0, 0, bvh.triangle_offset, 0⟩ ts
        let lc := acc.left.triangle_count
        let r1 := splitFuel fuel (pre ++ [{ bvh with left_offset := pre.length + 1 }])
          acc.left (acc.ts.take lc)
        let bvhs2 := patchRight r1.1 pre.length r1.1.length
        let r2 := splitFuel fuel bvhs2
          { acc.right with triangle_offset := bvh.triangle_offset + lc } (acc.ts.drop lc)
        (r2.1, r1.2 ++ r2.2)
      else (pre ++ [bvh], ts) := rfl

theorem splitFuel_not_accepted {bvh : Bvh} {ts : List Triangle}
    (h : accept bvh ts = false) (fuel : ℕ) (pre : List Bvh) :
    splitFuel fuel pre bvh ts = (pre ++ [bvh], ts) := by
  cases fuel with
  | zero => rfl
  | succ f => rw [splitFuel_succ]; simp [h]

theorem accept_flt {bvh : Bvh} {ts : List Triangle} (h : accept bvh ts = true) :
    F.flt (choose_split bvh ts).2.2
      (F.mul (F.fin (9 / 10))
        (bvh_cost bvh.min_bound bvh.max_bound bvh.triangle_count)) = true := h

theorem accept_lc {bvh : Bvh} {ts : List Triangle} (h : accept bvh ts = true)
    (bl br : Bvh) (hbl : bl.triangle_count = 0) :
    0 < (partitionTris (bestClassifier bvh ts) bl br ts).left.triangle_count ∧
    (partitionTris (bestClassifier bvh ts) bl br ts).left.triangle_count <
      ts.length := by
  obtain ⟨_, hpos, hlt⟩ := accept_facts (accept_flt h)
  have hcl : (partitionTris (bestClassifier bvh ts) bl br ts).left =
      growNodes bl (ts.filter (bestClassifier bvh ts)) :=
    (partitionTris_spec (bestClassifier bvh ts) ts bl br hbl).2.2.1
  have hc : (partitionTris (bestClassifier bvh ts) bl br ts).left.triangle_count =
      (ts.filter (bestClassifier bvh ts)).length := by
    rw [hcl, growNodes_count, hbl]; omega
  have hbc : ts.filter (bestClassifier bvh ts) =
      ts.filter (fun t =>
        t.anyVertexBelow (choose_split bvh ts).1 (choose_split bvh ts).2.1) := rfl
  rw [hc, hbc]
  exact ⟨hpos, hlt⟩

/-! Slice arithmetic helpers. -/

theorem getElem?_append_off {α : Type _} (l₁ l₂ : List α) (j : ℕ) :
    (l₁ ++ l₂)[l₁.length + j]? = l₂[j]? := by
  rw [List.getElem?_append, if_neg (by omega)]
  congr 1
  omega

theorem slice_append_left {α : Type _} {l₁ l₂ : List α} {d c : ℕ}
    (h : d + c ≤ l₁.length) :
    ((l₁ ++ l₂).drop d).take c = (l₁.drop d).take c := by
  apply List.ext_getElem?
  intro k
  rw [List.getElem?_take, List.getElem?_take]
  by_cases hk : k < c
  · rw [if_pos hk, if_pos hk, List.getElem?_drop, List.getElem?_drop,
      List.getElem?_append, if_pos (by omega)]
  · rw [if_neg hk, if_neg hk]

theorem slice_append_right {α : Type _} {l₁ l₂ : List α} {d c : ℕ}
    (h : l₁.length ≤ d) :
    ((l₁ ++ l₂).drop d).take c = (l₂.drop (d - l₁.length)).take c := by
  apply List.ext_getElem?
  intro k
  rw [List.getElem?_take, List.getElem?_take]
  by_cases hk : k < c
  · rw [if_pos hk, if_pos hk, List.getElem?_drop, List.getElem?_drop,
      List.getElem?_append, if_neg (by omega)]
    congr 1
    omega
  · rw [if_neg hk, if_neg hk]

theorem set_append_mid {α : Type _} (pre : List α) (b x : α) (rest : List α) :
    ((pre ++ [b]) ++ rest).set pre.length x = (pre ++ [x]) ++ rest := by
  apply List.ext_getElem?
  intro k
  by_cases hk : k = pre.length
  · subst hk
    rw [List.getElem?_set_self (by simp), List.getElem?_append,
      if_pos (by simp), List.getElem?_append, if_neg (by omega)]
    simp
  · rw [List.getElem?_set_ne (Ne.symm hk)]
    simp only [List.getElem?_append, List.length_append, List.length_cons,
      List.length_nil]
    split_ifs <;> first | rfl | (exfalso; omega)

theorem SplitOut_leaf (pre : List Bvh) (bvh : Bvh) (ts : List Triangle)
    (hcnt : bvh.triangle_count = ts.length) (hl0 : bvh.left_offset = 0)
    (hr0 : bvh.right_offset = 0) : SplitOut pre bvh ts (pre ++ [bvh], ts) := by
  refine ⟨[bvh], ts, rfl, by simp, List.Perm.refl ts,
    ⟨bvh, rfl, rfl, rfl, rfl, rfl⟩, ?_, ?_, ?_⟩
  · intro j nd hj
    cases j with
    | zero =>
      have hb : bvh = nd := by simpa using hj
      subst hb
      omega
    | succ m => cases hj
  · intro j nd hj
    cases j with
    | zero =>
      intro nd' hnd'
      have : (pre ++ [bvh])[pre.length + 0]? = some bvh := by
        rw [getElem?_append_off pre [bvh] 0]; rfl
      rw [this] at hnd'
      have hb : bvh = nd' := by simpa using hnd'
      subst hb
      exact Or.inl ⟨hl0, hr0⟩
    | succ m => cases hj
  · intro hfin htight j nd hj
    cases j with
    | zero =>
      have hb : bvh = nd := by simpa using hj
      subst hb
      rw [Nat.sub_self, List.drop_zero, hcnt, List.take_length]
      exact htight
    | succ m => cases hj

theorem ChildrenOk_mono {l l' : List Bvh} {i : ℕ}
    (h : ChildrenOk l i) (hlen : l.length ≤ l'.length)
    (hag : ∀ m, i ≤ m → m < l.length → l'[m]? = l[m]?)
    (hi : i < l.length) : ChildrenOk l' i := by
  intro nd hnd
  rw [hag i (le_refl i) hi] at hnd
  rcases h nd hnd with hleaf | ⟨he1, he2, he3, lnd, rnd, hl, hr, h4, h5, h6⟩
  · exact Or.inl hleaf
  · refine Or.inr ⟨he1, he2, by omega, lnd, rnd, ?_, ?_, h4, h5, h6⟩
    · rw [hag (i + 1) (by omega) (by omega)]
      exact hl
    · rw [hag nd.right_offset (by omega) he3]
      exact hr

/-- The main invariant of the recursive split: every call appends a
well-formed block of nodes. -/
theorem splitFuel_main (fuel : ℕ) :
    ∀ (pre : List Bvh) (bvh : Bvh) (ts : List Triangle),
      bvh.triangle_count = ts.length →
      bvh.left_offset = 0 →
      bvh.right_offset = 0 →
      SplitOut pre bvh ts (splitFuel fuel pre bvh ts) := by
  induction fuel with
  | zero =>
    intro pre bvh ts hcnt hl0 hr0
    exact SplitOut_leaf pre bvh ts hcnt hl0 hr0
  | succ fuel ih =>
    intro pre bvh ts hcnt hl0 hr0
    by_cases hacc : accept bvh ts = true
    case neg =>
      have hf : accept bvh ts = false := by simpa using hacc
      rw [splitFuel_not_accepted hf]
      exact SplitOut_leaf pre bvh ts hcnt hl0 hr0
    case pos =>
      set B0 : Bvh := ⟨bvh.max_bound, bvh.min_bound, 0, 0, bvh.triangle_offset, 0⟩
        with hB0
      obtain ⟨plen, pperm, pleft, pright, ptake⟩ :=
        partitionTris_spec (bestClassifier bvh ts) ts B0 B0 rfl
      obtain ⟨hlcpos, hlcn⟩ := accept_lc hacc B0 B0 rfl
      set acc := partitionTris (bestClassifier bvh ts) B0 B0 ts with hac
      set lc := acc.left.triangle_count with hlc
      have hlcQ : lc = (ts.filter (bestClassifier bvh ts)).length := by
        rw [hlc, pleft, growNodes_count]
        have hz : B0.triangle_count = 0 := rfl
        omega
      have hlsum : lc + (ts.filter (fun t => !(bestClassifier bvh ts t))).length =
          ts.length := by
        rw [hlcQ]
        exact length_filter_add _ ts
      set tsl := acc.ts.take lc with htsl
      set tsr := acc.ts.drop lc with htsr
      have htsl_len : tsl.length = lc := by
        rw [htsl, List.length_take]
        omega
      have htsr_len : tsr.length = ts.length - lc := by
        rw [htsr, List.length_drop, plen]
      have htsl_eq : tsl = ts.filter (bestClassifier bvh ts) := ptake
      have hsplit_at : tsl ++ tsr = acc.ts := List.take_append_drop lc acc.ts
      have htsr_perm :
          List.Perm tsr (ts.filter (fun t => !(bestClassifier bvh ts t))) := by
        have h2 : List.Perm (tsl ++ tsr) ts := hsplit_at ▸ pperm
        have h3 : List.Perm
            (ts.filter (bestClassifier bvh ts) ++
              ts.filter (fun t => !(bestClassifier bvh ts t))) ts :=
          List.filter_append_perm _ ts
        have h4 : List.Perm (ts.filter (bestClassifier bvh ts) ++ tsr)
            (ts.filter (bestClassifier bvh ts) ++
              ts.filter (fun t => !(bestClassifier bvh ts t))) :=
          (htsl_eq ▸ h2).trans h3.symm
        exact (List.perm_append_left_iff _).mp h4
      set L := acc.left with hLd
      have hLcnt : L.triangle_count = tsl.length := htsl_len.symm
      have hLl : L.left_offset = 0 := by
        rw [pleft, growNodes_left_offset]
      have hLr : L.right_offset = 0 := by
        rw [pleft, growNodes_right_offset]
      have hLoff : L.triangle_offset = bvh.triangle_offset := by
        rw [pleft, growNodes_triangle_offset]
      set parent : Bvh := { bvh with left_offset := pre.length + 1 } with hparent
      obtain ⟨new₁, ts₁', e₁, hn₁pos, hperm₁,
        ⟨hd₁, hhd₁, hd₁min, hd₁max, hd₁off, hd₁cnt⟩, hnest₁, hchild₁, htight₁⟩ :=
        ih (pre ++ [parent]) L tsl hLcnt hLl hLr
      have hts₁len : ts₁'.length = lc := by
        rw [hperm₁.length_eq, htsl_len]
      set parent2 : Bvh :=
        { bvh with left_offset := pre.length + 1,
                   right_offset := pre.length + 1 + new₁.length } with hparent2
      have hlook : ((pre ++ [parent]) ++ new₁)[pre.length]? = some parent := by
        rw [List.getElem?_append, if_pos (by simp)]
        rw [List.getElem?_append, if_neg (by omega)]
        simp
      have hr1len : (splitFuel fuel (pre ++ [parent]) L tsl).1.length =
          pre.length + 1 + new₁.length := by
        rw [e₁]
        simp
        omega
      have hpatch : patchRight (splitFuel fuel (pre ++ [parent]) L tsl).1 pre.length
          (splitFuel fuel (pre ++ [parent]) L tsl).1.length =
          (pre ++ [parent2]) ++ new₁ := by
        rw [hr1len, e₁]
        show patchRight ((pre ++ [parent]) ++ new₁) pre.length
          (pre.length + 1 + new₁.length) = _
        simp only [patchRight, hlook]
        have hx : ({ parent with right_offset := pre.length + 1 + new₁.length } : Bvh)
            = parent2 := rfl
        rw [hx]
        exact set_append_mid pre parent parent2 new₁
      set Rnode : Bvh :=
        { acc.right with triangle_offset := bvh.triangle_offset + lc } with hRd
      have hRcnt : Rnode.triangle_count = tsr.length := by
        have h1 : Rnode.triangle_count =
            (ts.filter (fun t => !(bestClassifier bvh ts t))).length := by
          show acc.right.triangle_count = _
          rw [pright, growNodes_count]
          have hz : B0.triangle_count = 0 := rfl
          omega
        rw [h1, htsr_len]
        omega
      have hRl : Rnode.left_offset = 0 := by
        show acc.right.left_offset = 0
        rw [pright, growNodes_left_offset]
      have hRr : Rnode.right_offset = 0 := by
        show acc.right.right_offset = 0
        rw [pright, growNodes_right_offset]
      have hRoff : Rnode.triangle_offset = bvh.triangle_offset + lc := rfl
      obtain ⟨new₂, ts₂', e₂, hn₂pos, hperm₂,
        ⟨hd₂, hhd₂, hd₂min, hd₂max, hd₂off, hd₂cnt⟩, hnest₂, hchild₂, htight₂⟩ :=
        ih ((pre ++ [parent2]) ++ new₁) Rnode tsr hRcnt hRl hRr
      have hts₂len : ts₂'.length = ts.length - lc := by
        rw [hperm₂.length_eq, htsr_len]
      have estep0 : splitFuel (fuel + 1) pre bvh ts =
          ((splitFuel fuel
              (patchRight (splitFuel fuel (pre ++ [parent]) L tsl).1 pre.length
                (splitFuel fuel (pre ++ [parent]) L tsl).1.length) Rnode tsr).1,
           (splitFuel fuel (pre ++ [parent]) L tsl).2 ++
             (splitFuel fuel
               (patchRight (splitFuel fuel (pre ++ [parent]) L tsl).1 pre.length
                 (splitFuel fuel (pre ++ [parent]) L tsl).1.length) Rnode tsr).2) := by
        rw [splitFuel_succ, if_pos hacc]
      have estep : splitFuel (fuel + 1) pre bvh ts =
          ((((pre ++ [parent2]) ++ new₁) ++ new₂ : List Bvh), ts₁' ++ ts₂') := by
        rw [estep0, hpatch, e₂, e₁]
      rw [estep]
      have hperm : List.Perm (ts₁' ++ ts₂') ts := by
        have h1 : List.Perm (ts₁' ++ ts₂') (tsl ++ tsr) := hperm₁.append hperm₂
        exact (hsplit_at ▸ h1).trans pperm
      have hidx : ∀ (j : ℕ) (nd : Bvh),
          ([parent2] ++ (new₁ ++ new₂))[j]? = some nd →
          (j = 0 ∧ nd = parent2) ∨
          (∃ j₁, j = 1 + j₁ ∧ j₁ < new₁.length ∧ new₁[j₁]? = some nd) ∨
          (∃ j₂, j = 1 + new₁.length + j₂ ∧ j₂ < new₂.length ∧
            new₂[j₂]? = some nd) := by
        intro j nd hj
        cases j with
        | zero =>
          left
          refine ⟨rfl, ?_⟩
          have := hj
          simp at this
          exact this.symm
        | succ m =>
          right
          have hm2 : (new₁ ++ new₂)[m]? = some nd := by simpa using hj
          rw [List.getElem?_append] at hm2
          by_cases hm : m < new₁.length
          · rw [if_pos hm] at hm2
            exact Or.inl ⟨m, by omega, hm, hm2⟩
          · rw [if_neg hm] at hm2
            have hmlt : m - new₁.length < new₂.length := by
              by_contra hcon
              rw [List.getElem?_eq_none (by omega)] at hm2
              cases hm2
            exact Or.inr ⟨m - new₁.length, by omega, hmlt, hm2⟩
      refine ⟨[parent2] ++ (new₁ ++ new₂), ts₁' ++ ts₂', by simp, by simp, hperm,
        ⟨parent2, by simp, rfl, rfl, rfl, rfl⟩, ?_, ?_, ?_⟩
      · -- range nesting
        intro j nd hj
        rcases hidx j nd hj with ⟨rfl, rfl⟩ | ⟨j₁, rfl, hj₁, hjm⟩ | ⟨j₂, rfl, hj₂, hjm⟩
        · refine ⟨le_refl _, ?_⟩
          show bvh.triangle_offset + bvh.triangle_count ≤ bvh.triangle_offset + ts.length
          omega
        · obtain ⟨ha, hb⟩ := hnest₁ j₁ nd hjm
          rw [hLoff] at ha hb
          rw [htsl_len] at hb
          omega
        · obtain ⟨ha, hb⟩ := hnest₂ j₂ nd hjm
          rw [hRoff] at ha hb
          rw [htsr_len] at hb
          omega
      · -- ChildrenOk at every new node
        intro j nd hj
        rcases hidx j nd hj with ⟨rfl, rfl⟩ | ⟨j₁, rfl, hj₁, hjm⟩ | ⟨j₂, rfl, hj₂, hjm⟩
        · -- the split node itself
          intro nd' hnd'
          have hlk : (pre ++ ([parent2] ++ (new₁ ++ new₂)))[pre.length + 0]? =
              some parent2 := by
            rw [getElem?_append_off]
            simp
          rw [hlk] at hnd'
          have hnd2 : parent2 = nd' := by simpa using hnd'
          subst hnd2
          refine Or.inr ⟨?_, ?_, ?_, hd₁, hd₂, ?_, ?_, ?_⟩
          · show pre.length + 1 = pre.length + 0 + 1
            omega
          · show pre.length + 0 + 1 < parent2.right_offset
            have : parent2.right_offset = pre.length + 1 + new₁.length := rfl
            omega
          · show parent2.right_offset < (pre ++ ([parent2] ++ (new₁ ++ new₂))).length
            have : parent2.right_offset = pre.length + 1 + new₁.length := rfl
            simp
            omega
          · show (pre ++ ([parent2] ++ (new₁ ++ new₂)))[pre.length + 0 + 1]? =
              some hd₁
            have h1 : pre.length + 0 + 1 = pre.length + 1 := by omega
            rw [h1, getElem?_append_off]
            have h2 : ([parent2] ++ (new₁ ++ new₂))[1]? = (new₁ ++ new₂)[0]? := by
              simp
            rw [h2, List.getElem?_append, if_pos (by omega)]
            exact hhd₁
          · show (pre ++ ([parent2] ++ (new₁ ++ new₂)))[parent2.right_offset]? =
              some hd₂
            have h1 : parent2.right_offset = pre.length + (1 + new₁.length) := by
              show pre.length + 1 + new₁.length = _
              omega
            rw [h1, getElem?_append_off]
            have h2 : ([parent2] ++ (new₁ ++ new₂))[1 + new₁.length]? =
                (new₁ ++ new₂)[new₁.length]? := by
              rw [show (1 : ℕ) + new₁.length = new₁.length + 1 from by omega]
              simp
            rw [h2, List.getElem?_append, if_neg (by omega), Nat.sub_self]
            exact hhd₂
          constructor
          · rw [hd₁off, hLoff]
          constructor
          · rw [hd₂off, hRoff, hd₁cnt, hLcnt, htsl_len]
          · rw [hd₁cnt, hd₂cnt, hLcnt, htsl_len, hRcnt, htsr_len]
            show lc + (ts.length - lc) = parent2.triangle_count
            have : parent2.triangle_count = bvh.triangle_count := rfl
            omega
        · -- a node of the left subtree
          have hco := hchild₁ j₁ nd hjm
          have hi1 : (pre ++ [parent]).length + j₁ = pre.length + 1 + j₁ := by simp
          rw [hi1] at hco
          have hag : ∀ m, pre.length + 1 + j₁ ≤ m →
              m < ((pre ++ [parent]) ++ new₁).length →
              (pre ++ ([parent2] ++ (new₁ ++ new₂)))[m]? =
                ((pre ++ [parent]) ++ new₁)[m]? := by
            intro m hm1 hm2
            simp only [List.length_append, List.length_cons, List.length_nil] at hm2
            obtain ⟨k, rfl⟩ : ∃ k, m = pre.length + 1 + k :=
              ⟨m - pre.length - 1, by omega⟩
            have hklt : k < new₁.length := by omega
            have hLs : (pre ++ ([parent2] ++ (new₁ ++ new₂)))[pre.length + 1 + k]? =
                new₁[k]? := by
              rw [show pre.length + 1 + k = pre.length + (1 + k) from by omega,
                getElem?_append_off]
              have hcons : ([parent2] ++ (new₁ ++ new₂))[1 + k]? =
                  (new₁ ++ new₂)[k]? := by
                rw [show (1 : ℕ) + k = k + 1 from by omega]
                simp
              rw [hcons, List.getElem?_append, if_pos hklt]
            have hRs : ((pre ++ [parent]) ++ new₁)[pre.length + 1 + k]? =
                new₁[k]? := by
              rw [show pre.length + 1 + k = (pre ++ [parent]).length + k from by simp,
                getElem?_append_off]
            rw [hLs, hRs]
          have hok := ChildrenOk_mono hco (by simp) hag
            (by simp; omega)
          have hi2 : pre.length + (1 + j₁) = pre.length + 1 + j₁ := by omega
          rw [hi2]
          exact hok
        · -- a node of the right subtree
          have hco := hchild₂ j₂ nd hjm
          have hleq : ((pre ++ [parent2]) ++ new₁) ++ new₂ =
              pre ++ ([parent2] ++ (new₁ ++ new₂)) := by simp
          rw [hleq] at hco
          have hi2 : pre.length + (1 + new₁.length + j₂) =
              ((pre ++ [parent2]) ++ new₁).length + j₂ := by simp; omega
          rw [hi2]
          exact hco
      · -- bound tightness
        intro hfin htight j nd hj
        have hfinl : ∀ t ∈ tsl, t.Finite := by
          intro t ht
          rw [htsl_eq] at ht
          exact hfin t (List.mem_of_mem_filter ht)
        have hfinr : ∀ t ∈ tsr, t.Finite := by
          intro t ht
          have := htsr_perm.mem_iff.mp ht
          exact hfin t (List.mem_of_mem_filter this)
        have hfne : ts.filter (bestClassifier bvh ts) ≠ [] := by
          intro hcon
          rw [hcon] at hlcQ
          simp at hlcQ
          omega
        have hfne2 : ts.filter (fun t => !(bestClassifier bvh ts t)) ≠ [] := by
          intro hcon
          rw [hcon] at hlsum
          simp at hlsum
          omega
        have hB0bounds : (B0.min_bound, B0.max_bound) =
            ((tightAABB ts).2, (tightAABB ts).1) := by
          have h1 : bvh.min_bound = (tightAABB ts).1 := by
            rw [← htight]
          have h2 : bvh.max_bound = (tightAABB ts).2 := by
            rw [← htight]
          show (bvh.max_bound, bvh.min_bound) = _
          rw [h1, h2]
        have hLtight : (L.min_bound, L.max_bound) = tightAABB tsl := by
          rw [pleft, growNodes_bounds, hB0bounds,
            grow_from_parent ts _ hfin (fun t ht => List.mem_of_mem_filter ht) hfne,
            htsl_eq]
        have hRtight : (Rnode.min_bound, Rnode.max_bound) = tightAABB tsr := by
          have hpair : (Rnode.min_bound, Rnode.max_bound) =
              (acc.right.min_bound, acc.right.max_bound) := rfl
          rw [hpair, pright, growNodes_bounds, hB0bounds,
            grow_from_parent ts _ hfin (fun t ht => List.mem_of_mem_filter ht) hfne2,
            tightAABB_perm htsr_perm]
        have ht₁ := htight₁ hfinl hLtight
        have ht₂ := htight₂ hfinr hRtight
        rcases hidx j nd hj with ⟨rfl, rfl⟩ | ⟨j₁, rfl, hj₁, hjm⟩ | ⟨j₂, rfl, hj₂, hjm⟩
        · have hoff : parent2.triangle_offset = bvh.triangle_offset := rfl
          rw [hoff, Nat.sub_self, List.drop_zero]
          have hcnt2 : parent2.triangle_count = ts.length := hcnt
          rw [hcnt2]
          have hlen12 : (ts₁' ++ ts₂').length = ts.length := hperm.length_eq
          rw [← hlen12, List.take_length]
          have hbp : (parent2.min_bound, parent2.max_bound) =
              (bvh.min_bound, bvh.max_bound) := rfl
          rw [hbp, htight, tightAABB_perm hperm]
        · have hb := ht₁ j₁ nd hjm
          rw [hLoff] at hb
          obtain ⟨ha1, ha2⟩ := hnest₁ j₁ nd hjm
          rw [hLoff] at ha1 ha2
          rw [htsl_len] at ha2
          rw [hb]
          congr 1
          exact (slice_append_left (by omega)).symm
        · have hb := ht₂ j₂ nd hjm
          rw [hRoff] at hb
          obtain ⟨ha1, ha2⟩ := hnest₂ j₂ nd hjm
          rw [hRoff] at ha1 ha2
          rw [htsr_len] at ha2
          rw [hb]
          congr 1
          rw [slice_append_right (by omega)]
          congr 1
          rw [hts₁len]
          congr 1
          omega

/-- For a slice of at most `MIN_TRIANGLES` triangles the split test fails:
`choose_split` reports an infinite cost and `flt` rejects it. -/
theorem accept_small {bvh : Bvh} {ts : List Triangle}
    (h : ts.length ≤ MIN_TRIANGLES) : accept bvh ts = false := by
  unfold accept
  rw [choose_split_small bvh ts h]
  exact F.flt_inf_true _

/-- Fuel congruence: any two fuels at least the slice length give the same
result. -/
theorem splitFuel_congr (n : ℕ) :
    ∀ (fuel fuel' : ℕ) (pre : List Bvh) (bvh : Bvh) (ts : List Triangle),
      ts.length ≤ n → ts.length ≤ fuel → ts.length ≤ fuel' →
      splitFuel fuel pre bvh ts = splitFuel fuel' pre bvh ts := by
  induction n with
  | zero =>
    intro fuel fuel' pre bvh ts hn hf hf'
    have hacc : accept bvh ts = false := accept_small (by omega)
    rw [splitFuel_not_accepted hacc, splitFuel_not_accepted hacc]
  | succ n ih =>
    intro fuel fuel' pre bvh ts hn hf hf'
    by_cases hsm : ts.length ≤ n
    · exact ih fuel fuel' pre bvh ts hsm hf hf'
    have hlen : ts.length = n + 1 := by omega
    cases fuel with
    | zero => exact absurd hf (by omega)
    | succ f =>
      cases fuel' with
      | zero => exact absurd hf' (by omega)
      | succ f' =>
        by_cases hacc : accept bvh ts = true
        case neg =>
          have hfa : accept bvh ts = false := by simpa using hacc
          rw [splitFuel_not_accepted hfa, splitFuel_not_accepted hfa]
        case pos =>
          set B0 : Bvh := ⟨bvh.max_bound, bvh.min_bound, 0, 0, bvh.triangle_offset, 0⟩
            with hB0
          obtain ⟨plen, -, -, -, -⟩ :=
            partitionTris_spec (bestClassifier bvh ts) ts B0 B0 rfl
          obtain ⟨hlcpos, hlcn⟩ := accept_lc hacc B0 B0 rfl
          set acc := partitionTris (bestClassifier bvh ts) B0 B0 ts with hac
          set lc := acc.left.triangle_count with hlc
          set parent : Bvh := { bvh with left_offset := pre.length + 1 } with hparent
          set tsl := acc.ts.take lc with htsl
          set tsr := acc.ts.drop lc with htsr
          have htsl_len : tsl.length ≤ n := by
            rw [htsl, List.length_take, plen]
            omega
          have htsr_len : tsr.length ≤ n := by
            rw [htsr, List.length_drop, plen]
            omega
          have e1 : splitFuel (f + 1) pre bvh ts =
              ((splitFuel f
                  (patchRight (splitFuel f (pre ++ [parent]) acc.left tsl).1 pre.length
                    (splitFuel f (pre ++ [parent]) acc.left tsl).1.length)
                  { acc.right with triangle_offset := bvh.triangle_offset + lc } tsr).1,
               (splitFuel f (pre ++ [parent]) acc.left tsl).2 ++
                 (splitFuel f
                   (patchRight (splitFuel f (pre ++ [parent]) acc.left tsl).1 pre.length
                     (splitFuel f (pre ++ [parent]) acc.left tsl).1.length)
                   { acc.right with triangle_offset := bvh.triangle_offset + lc } tsr).2) := by
            rw [splitFuel_succ, if_pos hacc]
          have e2 : splitFuel (f' + 1) pre bvh ts =
              ((splitFuel f'
                  (patchRight (splitFuel f' (pre ++ [parent]) acc.left tsl).1 pre.length
                    (splitFuel f' (pre ++ [parent]) acc.left tsl).1.length)
                  { acc.right with triangle_offset := bvh.triangle_offset + lc } tsr).1,
               (splitFuel f' (pre ++ [parent]) acc.left tsl).2 ++
                 (splitFuel f'
                   (patchRight (splitFuel f' (pre ++ [parent]) acc.left tsl).1 pre.length
                     (splitFuel f' (pre ++ [parent]) acc.left tsl).1.length)
                   { acc.right with triangle_offset := bvh.triangle_offset + lc } tsr).2) := by
            rw [splitFuel_succ, if_pos hacc]
          have h1 : splitFuel f (pre ++ [parent]) acc.left tsl =
              splitFuel f' (pre ++ [parent]) acc.left tsl :=
            ih f f' _ _ _ htsl_len (by omega) (by omega)
          have h2 : splitFuel f
                (patchRight (splitFuel f' (pre ++ [parent]) acc.left tsl).1 pre.length
                  (splitFuel f' (pre ++ [parent]) acc.left tsl).1.length)
                { acc.right with triangle_offset := bvh.triangle_offset + lc } tsr =
              splitFuel f'
                (patchRight (splitFuel f' (pre ++ [parent]) acc.left tsl).1 pre.length
                  (splitFuel f' (pre ++ [parent]) acc.left tsl).1.length)
                { acc.right with triangle_offset := bvh.triangle_offset + lc } tsr :=
            ih f f' _ _ _ htsr_len (by omega) (by omega)
          rw [e1, e2, h1, h2]

/-- With fuel at least the slice length, the fuel-based recursion has
stabilised: `split` is its common value, so the source's recursion is
well-founded and `split` its exact semantics. -/
theorem splitFuel_stable (fuel : ℕ) (pre : List Bvh) (bvh : Bvh) (ts : List Triangle)
    (h : ts.length ≤ fuel) :
    splitFuel fuel pre bvh ts = split pre bvh ts :=
  splitFuel_congr fuel fuel ts.length pre bvh ts h h (le_refl _)

/-- `split` satisfies the full output specification. -/
theorem split_spec (pre : List Bvh) (bvh : Bvh) (ts : List Triangle)
    (hcnt : bvh.triangle_count = ts.length) (hl0 : bvh.left_offset = 0)
    (hr0 : bvh.right_offset = 0) :
    SplitOut pre bvh ts (split pre bvh ts) :=
  splitFuel_main ts.length pre bvh ts hcnt hl0 hr0

/-- An accepted split turns the current node into an internal node: its
`left_offset` becomes its own index plus one and its `right_offset` points
strictly beyond that, inside the final array. -/
theorem split_acc_head (pre : List Bvh) (bvh : Bvh) (ts : List Triangle)
    (hacc : accept bvh ts = true) :
    ∃ nd, (split pre bvh ts).1[pre.length]? = some nd ∧
      nd.left_offset = pre.length + 1 ∧ pre.length + 1 < nd.right_offset ∧
      nd.right_offset < (split pre bvh ts).1.length := by
  have hsp : split pre bvh ts = splitFuel (ts.length + 1) pre bvh ts :=
    (splitFuel_stable (ts.length + 1) pre bvh ts (by omega)).symm
  rw [hsp]
  set B0 : Bvh := ⟨bvh.max_bound, bvh.min_bound, 0, 0, bvh.triangle_offset, 0⟩
    with hB0
  obtain ⟨plen, pperm, pleft, pright, ptake⟩ :=
    partitionTris_spec (bestClassifier bvh ts) ts B0 B0 rfl
  obtain ⟨hlcpos, hlcn⟩ := accept_lc hacc B0 B0 rfl
  set acc := partitionTris (bestClassifier bvh ts) B0 B0 ts with hac
  set lc := acc.left.triangle_count with hlc
  have hlcQ : lc = (ts.filter (bestClassifier bvh ts)).length := by
    rw [hlc, pleft, growNodes_count]
    have hz : B0.triangle_count = 0 := rfl
    omega
  set tsl := acc.ts.take lc with htsl
  set tsr := acc.ts.drop lc with htsr
  have htsl_len : tsl.length = lc := by
    rw [htsl, List.length_take, plen]
    omega
  have htsr_len : tsr.length = ts.length - lc := by
    rw [htsr, List.length_drop, plen]
  set L := acc.left with hLd
  have hLcnt : L.triangle_count = tsl.length := htsl_len.symm
  have hLl : L.left_offset = 0 := by rw [pleft, growNodes_left_offset]
  have hLr : L.right_offset = 0 := by rw [pleft, growNodes_right_offset]
  set parent : Bvh := { bvh with left_offset := pre.length + 1 } with hparent
  obtain ⟨new₁, ts₁', e₁, hn₁pos, hperm₁, -, -, -, -⟩ :=
    splitFuel_main ts.length (pre ++ [parent]) L tsl hLcnt hLl hLr
  set parent2 : Bvh :=
    { bvh with left_offset := pre.length + 1,
               right_offset := pre.length + 1 + new₁.length } with hparent2
  have hlook : ((pre ++ [parent]) ++ new₁)[pre.length]? = some parent := by
    rw [List.getElem?_append, if_pos (by simp)]
    rw [List.getElem?_append, if_neg (by omega)]
    simp
  have hr1len : (splitFuel ts.length (pre ++ [parent]) L tsl).1.length =
      pre.length + 1 + new₁.length := by
    rw [e₁]
    simp
    omega
  have hpatch : patchRight (splitFuel ts.length (pre ++ [parent]) L tsl).1 pre.length
      (splitFuel ts.length (pre ++ [parent]) L tsl).1.length =
      (pre ++ [parent2]) ++ new₁ := by
    rw [hr1len, e₁]
    show patchRight ((pre ++ [parent]) ++ new₁) pre.length
      (pre.length + 1 + new₁.length) = _
    simp only [patchRight, hlook]
    have hx : ({ parent with right_offset := pre.length + 1 + new₁.length } : Bvh)
        = parent2 := rfl
    rw [hx]
    exact set_append_mid pre parent parent2 new₁
  set Rnode : Bvh :=
    { acc.right with triangle_offset := bvh.triangle_offset + lc } with hRd
  have hRcnt : Rnode.triangle_count = tsr.length := by
    have h1 : Rnode.triangle_count =
        (ts.filter (fun t => !(bestClassifier bvh ts t))).length := by
      show acc.right.triangle_count = _
      rw [pright, growNodes_count]
      have hz : B0.triangle_count = 0 := rfl
      omega
    rw [h1, htsr_len]
    have := length_filter_add (bestClassifier bvh ts) ts
    omega
  have hRl : Rnode.left_offset = 0 := by
    show acc.right.left_offset = 0
    rw [pright, growNodes_left_offset]
  have hRr : Rnode.right_offset = 0 := by
    show acc.right.right_offset = 0
    rw [pright, growNodes_right_offset]
  obtain ⟨new₂, ts₂', e₂, hn₂pos, -, -, -, -, -⟩ :=
    splitFuel_main ts.length ((pre ++ [parent2]) ++ new₁) Rnode tsr hRcnt hRl hRr
  have estep0 : splitFuel (ts.length + 1) pre bvh ts =
      ((splitFuel ts.length
          (patchRight (splitFuel ts.length (pre ++ [parent]) L tsl).1 pre.length
            (splitFuel ts.length (pre ++ [parent]) L tsl).1.length) Rnode tsr).1,
       (splitFuel ts.length (pre ++ [parent]) L tsl).2 ++
         (splitFuel ts.length
           (patchRight (splitFuel ts.length (pre ++ [parent]) L tsl).1 pre.length
             (splitFuel ts.length (pre ++ [parent]) L tsl).1.length) Rnode tsr).2) := by
    rw [splitFuel_succ, if_pos hacc]
  have estep : splitFuel (ts.length + 1) pre bvh ts =
      ((((pre ++ [parent2]) ++ new₁) ++ new₂ : List Bvh), ts₁' ++ ts₂') := by
    rw [estep0, hpatch, e₂, e₁]
  rw [estep]
  refine ⟨parent2, ?_, rfl, ?_, ?_⟩
  · show (((pre ++ [parent2]) ++ new₁) ++ new₂ : List Bvh)[pre.length]? = some parent2
    have hassoc : (((pre ++ [parent2]) ++ new₁) ++ new₂ : List Bvh) =
        pre ++ ([parent2] ++ (new₁ ++ new₂)) := by simp
    rw [hassoc, show (pre.length : ℕ) = pre.length + 0 from by omega,
      getElem?_append_off]
    simp
  · show pre.length + 1 < pre.length + 1 + new₁.length
    omega
  · show pre.length + 1 + new₁.length <
      (((pre ++ [parent2]) ++ new₁) ++ new₂ : List Bvh).length
    simp
    omega

/-- `build` preserves sentinel well-formedness of the node array. -/
theorem SentinelOk_build (bvhs : List Bvh) (ts : List Triangle) (off : ℕ)
    (hok : SentinelOk bvhs) : SentinelOk (build bvhs ts off).1 := by
  obtain ⟨new, ts', heq, hpos, hperm, hhead, hnest, hchild, htight⟩ :=
    split_spec bvhs ⟨(tightAABB ts).1, (tightAABB ts).2, 0, 0, off, ts.length⟩ ts
      rfl rfl rfl
  have hb : (build bvhs ts off).1 = bvhs ++ new := by
    have hbd : build bvhs ts off =
        split bvhs ⟨(tightAABB ts).1, (tightAABB ts).2, 0, 0, off, ts.length⟩ ts := rfl
    rw [hbd, heq]
  rw [hb]
  intro i nd hnd
  by_cases hi : i < bvhs.length
  · rw [List.getElem?_append, if_pos hi] at hnd
    rcases hok i nd hnd with hleaf | ⟨h1, h2, h3⟩
    · exact Or.inl hleaf
    · refine Or.inr ⟨h1, h2, ?_⟩
      simp
      omega
  · obtain ⟨k, rfl⟩ : ∃ k, i = bvhs.length + k := ⟨i - bvhs.length, by omega⟩
    rw [getElem?_append_off] at hnd
    have hco := hchild k nd hnd
    rcases hco nd (by rw [getElem?_append_off]; exact hnd) with
      hleaf | ⟨h1, h2, h3, -⟩
    · exact Or.inl hleaf
    · exact Or.inr ⟨h1, h2, h3⟩

/-- The sentinel property holds for the node array of any assembled scene. -/
theorem SentinelOk_loadModels (meshes : List (List Triangle)) :
    SentinelOk (loadModels meshes).2.1 := by
  have base : SentinelOk ([] : List Bvh) := by
    intro i nd hnd
    simp at hnd
  refine foldl_pres (P := fun st : List Triangle × List Bvh × List Model =>
    SentinelOk st.2.1) ?_ meshes ([], [], []) base
  intro st mesh hst
  exact SentinelOk_build st.2.1 mesh st.1.length hst

end Bvh

/-! Evaluation of the rounding model at the values of the precision
counterexample.  `Int.log` is defined by well-founded recursion, so these
values are computed through its characterisation instead of by reduction. -/

theorem Int_log_eq {q : ℚ} (hq : 0 < q) {L : ℤ}
    (h1 : (2 : ℚ) ^ L ≤ q) (h2 : q < (2 : ℚ) ^ (L + 1)) :
    Int.log 2 q = L := by
  have hle : L ≤ Int.log 2 q := by
    refine (Int.zpow_le_iff_le_log (by norm_num) hq).mp ?_
    exact_mod_cast h1
  have hlt : Int.log 2 q < L + 1 := by
    refine (Int.lt_zpow_iff_log_lt (by norm_num) hq).mp ?_
    exact_mod_cast h2
  omega

theorem rnd_eval (p : ℕ) {q : ℚ} (hq : 0 < q) {L : ℤ}
    (h1 : (2 : ℚ) ^ L ≤ q) (h2 : q < (2 : ℚ) ^ (L + 1)) :
    rnd p q = (rne (q / 2 ^ (L - ((p : ℤ) - 1))) : ℚ) * 2 ^ (L - ((p : ℤ) - 1)) := by
  simp only [rnd]
  rw [if_neg (ne_of_gt hq), abs_of_pos hq, Int_log_eq hq h1 h2]

theorem rne_int (m : ℤ) : rne (m : ℚ) = m := by
  simp only [rne]
  rw [Int.floor_intCast]
  rw [if_pos (by norm_num)]

theorem rne_lt_half {q : ℚ} {n : ℤ} (hn : ⌊q⌋ = n) (h : q - n < 1 / 2) :
    rne q = n := by
  simp only [rne]
  rw [hn, if_pos h]

/-- A value that is an integer multiple of the scale `2 ^ (L - (p - 1))` is
representable with `p` significand bits and rounds to itself. -/
theorem rnd_exact (p : ℕ) {q : ℚ} {m L : ℤ} (hq : 0 < q)
    (h1 : (2 : ℚ) ^ L ≤ q) (h2 : q < (2 : ℚ) ^ (L + 1))
    (hm : q = (m : ℚ) * 2 ^ (L - ((p : ℤ) - 1))) :
    rnd p q = q := by
  rw [rnd_eval p hq h1 h2]
  have hdiv : q / 2 ^ (L - ((p : ℤ) - 1)) = (m : ℚ) := by
    rw [hm]
    field_simp
  rw [hdiv, rne_int, ← hm]

theorem r32_one : r32 1 = 1 :=
  rnd_exact 24 (L := 0) (m := 2 ^ 23) (by norm_num) (by norm_num) (by norm_num)
    (by norm_num)

theorem r64_one : r64 1 = 1 :=
  rnd_exact 53 (L := 0) (m := 2 ^ 52) (by norm_num) (by norm_num) (by norm_num)
    (by norm_num)

theorem r32_small : r32 (1 / 2 ^ 29) = 1 / 2 ^ 29 :=
  rnd_exact 24 (L := -29) (m := 2 ^ 23) (by norm_num) (by norm_num) (by norm_num)
    (by norm_num)

theorem r64_small : r64 (1 / 2 ^ 29) = 1 / 2 ^ 29 :=
  rnd_exact 53 (L := -29) (m := 2 ^ 52) (by norm_num) (by norm_num) (by norm_num)
    (by norm_num)

theorem r64_np29 : r64 (1 + 1 / 2 ^ 29) = 1 + 1 / 2 ^ 29 :=
  rnd_exact 53 (L := 0) (m := 2 ^ 52 + 2 ^ 23) (by norm_num) (by norm_num)
    (by norm_num) (by norm_num)

theorem r64_np28 : r64 (1 + 1 / 2 ^ 28) = 1 + 1 / 2 ^ 28 :=
  rnd_exact 53 (L := 0) (m := 2 ^ 52 + 2 ^ 24) (by norm_num) (by norm_num)
    (by norm_num) (by norm_num)

/-- `1 + 2⁻²⁹` is below half an ulp above `1` in single precision: it rounds
down to `1`. -/
theorem r32_np29 : r32 (1 + 1 / 2 ^ 29) = 1 := by
  show rnd 24 (1 + 1 / 2 ^ 29) = 1
  rw [rnd_eval 24 (L := 0) (by norm_num) (by norm_num) (by norm_num)]
  have hdiv : ((1 : ℚ) + 1 / 2 ^ 29) / 2 ^ ((0 : ℤ) - (((24 : ℕ) : ℤ) - 1)) =
      2 ^ 23 + 1 / 2 ^ 6 := by
    norm_num
  rw [hdiv, rne_lt_half (n := 2 ^ 23) (by rw [Int.floor_eq_iff]; norm_num)
    (by norm_num)]
  norm_num

/-- On the counterexample box the implemented cost evaluates to `1`. -/
theorem c6_impl_val : bvh_cost_impl mnC mxC 1 = 1 := by
  have e1 : (1 : ℚ) - 0 = 1 := by norm_num
  have e2 : (1 : ℚ) / 2 ^ 29 - 0 = 1 / 2 ^ 29 := by norm_num
  simp only [bvh_cost_impl, mnC, mxC, e1, e2, r32_one, r32_small, r32_np29,
    one_mul, mul_one, Nat.cast_one, r64_one]

/-- On the counterexample box the all-double cost evaluates to `1 + 2⁻²⁸`. -/
theorem c6_double_val : bvh_cost_double mnC mxC 1 = 1 + 1 / 2 ^ 28 := by
  have e1 : (1 : ℚ) - 0 = 1 := by norm_num
  have e2 : (1 : ℚ) / 2 ^ 29 - 0 = 1 / 2 ^ 29 := by norm_num
  have e3 : ((1 : ℚ) + 1 / 2 ^ 29) + 1 / 2 ^ 29 = 1 + 1 / 2 ^ 28 := by norm_num
  simp only [bvh_cost_double, mnC, mxC, e1, e2, r64_one, r64_small, r64_np29, e3,
    one_mul, mul_one, Nat.cast_one, r64_np28]

/-! The claims. -/

namespace Bvh

set_option maxRecDepth 20000

/-- C1: every internal node of a tree produced by `build` satisfies the range
partition invariant — the left child's `triangle_offset` equals the parent's,
the right child's equals the parent's plus the left child's `triangle_count`,
and the two counts sum to the parent's, so the children's ranges are
disjoint, contiguous and cover the parent's range exactly. -/
theorem c1_range_partition (bvhs : List Bvh) (ts : List Triangle) (off : ℕ)
    (j : ℕ) (hj : bvhs.length ≤ j) :
    ChildrenOk (build bvhs ts off).1 j := by
  obtain ⟨new, ts', heq, hpos, hperm, hhead, hnest, hchild, htight⟩ :=
    split_spec bvhs (rootOf ts off) ts rfl rfl rfl
  have hb : (build bvhs ts off).1 = bvhs ++ new := by
    have hbd : build bvhs ts off = split bvhs (rootOf ts off) ts := rfl
    rw [hbd, heq]
  rw [hb]
  obtain ⟨k, rfl⟩ : ∃ k, j = bvhs.length + k := ⟨j - bvhs.length, by omega⟩
  by_cases hk : k < new.length
  · obtain ⟨nd, hnd⟩ : ∃ nd, new[k]? = some nd :=
      ⟨_, List.getElem?_eq_getElem hk⟩
    exact hchild k nd hnd
  · intro nd hnd
    rw [getElem?_append_off, List.getElem?_eq_none (by omega)] at hnd
    cases hnd

theorem c1_witness :
    ([] : List Bvh).length ≤ 0 ∧ ChildrenOk (build [] exSplit 0).1 0 :=
  ⟨by decide, c1_range_partition [] exSplit 0 0 (by decide)⟩

/-- C2 (amended): over a slice whose coordinates are all finite, every node
of the tree produced by `build` carries exactly the tight AABB of the
triangles in its final range.  (Without the finiteness hypothesis the claim
fails: see the counterexample.) -/
theorem c2_tight_bounds (bvhs : List Bvh) (ts : List Triangle) (off : ℕ)
    (hfin : ∀ t ∈ ts, t.Finite) (j : ℕ) (nd : Bvh)
    (hnd : (build bvhs ts off).1[bvhs.length + j]? = some nd) :
    (nd.min_bound, nd.max_bound) =
      tightAABB (((build bvhs ts off).2.drop (nd.triangle_offset - off)).take
        nd.triangle_count) := by
  obtain ⟨new, ts', heq, hpos, hperm, hhead, hnest, hchild, htight⟩ :=
    split_spec bvhs (rootOf ts off) ts rfl rfl rfl
  have hb1 : (build bvhs ts off).1 = bvhs ++ new := by
    have hbd : build bvhs ts off = split bvhs (rootOf ts off) ts := rfl
    rw [hbd, heq]
  have hb2 : (build bvhs ts off).2 = ts' := by
    have hbd : build bvhs ts off = split bvhs (rootOf ts off) ts := rfl
    rw [hbd, heq]
  rw [hb1, getElem?_append_off] at hnd
  rw [hb2]
  have hroot : ((rootOf ts off).min_bound, (rootOf ts off).max_bound) =
      tightAABB ts := rfl
  exact htight hfin hroot j nd hnd

theorem c2_witness :
    (exRightNode.min_bound, exRightNode.max_bound) =
      tightAABB (((build [] exSplit 0).2.drop (exRightNode.triangle_offset - 0)).take
        exRightNode.triangle_count) :=
  c2_tight_bounds [] exSplit 0 (by decide) 2 exRightNode (by decide)

theorem c2_not_tight :
    ∃ nd, (build [] exNaN 0).1[2]? = some nd ∧
      (nd.min_bound, nd.max_bound) ≠
        tightAABB (((build [] exNaN 0).2.drop (nd.triangle_offset - 0)).take
          nd.triangle_count) :=
  ⟨exRightNode, by decide, by decide⟩

/-- C3: a pushed node is split exactly when its slice holds more than
`MIN_TRIANGLES` triangles and the best sampled split cost is strictly below
`0.9` times the node's own cost; an accepted split gives the node two
children, a rejected one leaves it a leaf, and a slice of at most
`MIN_TRIANGLES` triangles gets an infinite `choose_split` cost and a
single-leaf `build`. -/
theorem c3_split_test (pre bvhs : List Bvh) (bvh : Bvh) (ts : List Triangle)
    (off : ℕ) :
    (accept bvh ts =
      (decide (MIN_TRIANGLES < ts.length) &&
        F.flt (choose_split bvh ts).2.2
          (F.mul (F.fin (9 / 10))
            (bvh_cost bvh.min_bound bvh.max_bound bvh.triangle_count)))) ∧
    (accept bvh ts = true →
      ∃ nd, (split pre bvh ts).1[pre.length]? = some nd ∧
        nd.left_offset = pre.length + 1 ∧ pre.length + 1 < nd.right_offset ∧
        nd.right_offset < (split pre bvh ts).1.length) ∧
    (accept bvh ts = false → split pre bvh ts = (pre ++ [bvh], ts)) ∧
    (ts.length ≤ MIN_TRIANGLES →
      (choose_split bvh ts).2.2 = F.inf true ∧
      (build bvhs ts off).1 = bvhs ++ [rootOf ts off]) := by
  refine ⟨?_, split_acc_head pre bvh ts, ?_, ?_⟩
  · by_cases h : MIN_TRIANGLES < ts.length
    · rw [decide_eq_true h, Bool.true_and]
      rfl
    · rw [decide_eq_false h, Bool.false_and]
      exact accept_small (by omega)
  · intro h
    exact splitFuel_not_accepted h ts.length pre
  · intro h
    refine ⟨by rw [choose_split_small bvh ts h], ?_⟩
    have hacc : accept (rootOf ts off) ts = false := accept_small h
    have hb : (build bvhs ts off).1 = (split bvhs (rootOf ts off) ts).1 := rfl
    rw [hb, show split bvhs (rootOf ts off) ts = (bvhs ++ [rootOf ts off], ts) from
      splitFuel_not_accepted hacc ts.length bvhs]

/-- C4: the recursion of `split` terminates — with fuel at least the slice
length the fuel-based recursion has stabilised, because every accepted split
has both sides nonempty (a candidate putting all triangles on one side gets
a `NaN` cost, which `flt` rejects), so both sub-slices are strictly
shorter. -/
theorem c4_termination (pre : List Bvh) (bvh : Bvh) (ts : List Triangle) :
    (∀ fuel, ts.length ≤ fuel → splitFuel fuel pre bvh ts = split pre bvh ts) ∧
    (accept bvh ts = true →
      MIN_TRIANGLES < ts.length ∧
      0 < (ts.filter (bestClassifier bvh ts)).length ∧
      (ts.filter (bestClassifier bvh ts)).length < ts.length) :=
  ⟨fun fuel h => splitFuel_stable fuel pre bvh ts h,
   fun hacc => accept_facts (accept_flt hacc)⟩

/-- C5 (amended): the in-place partition is a single-pass swap partition
whose left side is the stable filter of the classifier — but the right side
is only a permutation of the triangles classified right; their relative
order is not preserved (see the counterexample). -/
theorem c5_partition (p : Triangle → Bool) (ts : List Triangle) (bl br : Bvh)
    (hbl : bl.triangle_count = 0) :
    (partitionTris p bl br ts).ts.take
        (partitionTris p bl br ts).left.triangle_count = ts.filter p ∧
    List.Perm ((partitionTris p bl br ts).ts.drop
        (partitionTris p bl br ts).left.triangle_count)
      (ts.filter (fun t => !p t)) ∧
    List.Perm (partitionTris p bl br ts).ts ts := by
  obtain ⟨plen, pperm, pleft, pright, ptake⟩ := partitionTris_spec p ts bl br hbl
  refine ⟨ptake, ?_, pperm⟩
  have hsplit_at :
      (partitionTris p bl br ts).ts.take
          (partitionTris p bl br ts).left.triangle_count ++
        (partitionTris p bl br ts).ts.drop
          (partitionTris p bl br ts).left.triangle_count =
      (partitionTris p bl br ts).ts := List.take_append_drop _ _
  have h2 : List.Perm
      (ts.filter p ++ (partitionTris p bl br ts).ts.drop
        (partitionTris p bl br ts).left.triangle_count) ts := by
    rw [← ptake, hsplit_at]
    exact pperm
  have h3 : List.Perm (ts.filter p ++ ts.filter (fun t => !p t)) ts :=
    List.filter_append_perm p ts
  have h4 : List.Perm
      (ts.filter p ++ (partitionTris p bl br ts).ts.drop
        (partitionTris p bl br ts).left.triangle_count)
      (ts.filter p ++ ts.filter (fun t => !p t)) := h2.trans h3.symm
  exact (List.perm_append_left_iff _).mp h4

theorem c5_witness :
    (partitionTris (bestClassifier (rootOf exSplit 0) exSplit)
        zNode zNode exSplit).ts.take
      (partitionTris (bestClassifier (rootOf exSplit 0) exSplit)
        zNode zNode exSplit).left.triangle_count =
      exSplit.filter (bestClassifier (rootOf exSplit 0) exSplit) ∧
    List.Perm ((partitionTris (bestClassifier (rootOf exSplit 0) exSplit)
        zNode zNode exSplit).ts.drop
      (partitionTris (bestClassifier (rootOf exSplit 0) exSplit)
        zNode zNode exSplit).left.triangle_count)
      (exSplit.filter (fun t => !(bestClassifier (rootOf exSplit 0) exSplit t))) ∧
    List.Perm (partitionTris (bestClassifier (rootOf exSplit 0) exSplit)
        zNode zNode exSplit).ts exSplit :=
  c5_partition (bestClassifier (rootOf exSplit 0) exSplit) exSplit zNode zNode rfl

theorem c5_not_stable :
    accept (rootOf exOrder 0) exOrder = true ∧
    (partitionTris (bestClassifier (rootOf exOrder 0) exOrder)
        (childInit (rootOf exOrder 0)) (childInit (rootOf exOrder 0)) exOrder).ts ≠
      exOrder.filter (bestClassifier (rootOf exOrder 0) exOrder) ++
        exOrder.filter (fun t => !(bestClassifier (rootOf exOrder 0) exOrder t)) :=
  ⟨by decide, by decide⟩

/-- C6 (amended): the node cost is the count times the surface area
`dx·(dy + dz) + dy·dz = dx·dy + dy·dz + dx·dz`, but only the final
multiplication by the count is a double-precision operation: the surface
area itself, including all its arithmetic, is computed in single
precision and then converted. -/
theorem c6_cost_precision (mn mx : ℚ × ℚ × ℚ) (count : ℕ) :
    bvh_cost_impl mn mx count = r64 ((count : ℚ) * surface_area32 mn mx) ∧
    (∀ dx dy dz : ℚ, dx * (dy + dz) + dy * dz = dx * dy + dy * dz + dx * dz) :=
  ⟨rfl, fun dx dy dz => by ring⟩

theorem c6_not_double :
    bvh_cost_impl mnC mxC 1 ≠ bvh_cost_double mnC mxC 1 := by
  rw [c6_impl_val, c6_double_val]
  norm_num

/-- C7: `build` on an empty slice appends exactly one node — a leaf with the
zero sentinel offsets, zero count and inverted infinite bounds — and its
split test fails, so no split is attempted on it. -/
theorem c7_empty (bvhs : List Bvh) (off : ℕ) :
    build bvhs [] off = (bvhs ++ [⟨V3.vInf, V3.vNegInf, 0, 0, off, 0⟩], []) ∧
    accept ⟨V3.vInf, V3.vNegInf, 0, 0, off, 0⟩ [] = false :=
  ⟨rfl, accept_small (by decide)⟩

/-- C8: the assembler records each `Model`'s `bvh_index` as the node-array
length before its build and `material_id = 0`, appends the mesh's reordered
triangles after the existing ones, and the pushed root carries
`triangle_offset` equal to the triangle-array length before the mesh and the
mesh's count; scenario C (two three-triangle meshes) yields two models with
`bvh_index` `0` and `1` and disjoint in-order triangle ranges. -/
theorem c8_assembler (triangles : List Triangle) (bvhs : List Bvh)
    (mesh : List Triangle) :
    ((Model.load triangles bvhs mesh).2.2 = ⟨bvhs.length, 0⟩ ∧
     (Model.load triangles bvhs mesh).1 =
       triangles ++ (build bvhs mesh triangles.length).2 ∧
     (∃ root, (Model.load triangles bvhs mesh).2.1[bvhs.length]? = some root ∧
       root.triangle_offset = triangles.length ∧
       root.triangle_count = mesh.length)) ∧
    ((loadModels [exMeshA, exMeshB]).2.2 = [⟨0, 0⟩, ⟨1, 0⟩] ∧
     (loadModels [exMeshA, exMeshB]).1 = exMeshA ++ exMeshB ∧
     (loadModels [exMeshA, exMeshB]).2.1 =
       [⟨pt 0 0 0, pt 1 1 0, 0, 0, 0, 3⟩,
        ⟨pt 100 0 0, pt 101 1 0, 0, 0, 3, 3⟩]) := by
  constructor
  · refine ⟨rfl, rfl, ?_⟩
    obtain ⟨new, ts', heq, hpos, hperm, ⟨h0, hh0, -, -, hoff, hcnt⟩, -, -, -⟩ :=
      split_spec bvhs (rootOf mesh triangles.length) mesh rfl rfl rfl
    have hb1 : (Model.load triangles bvhs mesh).2.1 = bvhs ++ new := by
      have hbd : (Model.load triangles bvhs mesh).2.1 =
          (split bvhs (rootOf mesh triangles.length) mesh).1 := rfl
      rw [hbd, heq]
    refine ⟨h0, ?_, hoff, by rw [hcnt]; rfl⟩
    rw [hb1, show bvhs.length = bvhs.length + 0 from rfl, getElem?_append_off]
    exact hh0
  · exact ⟨by decide, by decide, by decide⟩

/-- C9: in every node array the assembler produces, the sentinel test
`left_offset = 0 ∧ right_offset = 0` identifies exactly the leaves: a split
node's `left_offset` is its own index plus one — never `0` — and its
`right_offset` lies strictly beyond it, inside the array. -/
theorem c9_sentinel_exact (meshes : List (List Triangle)) :
    SentinelOk (loadModels meshes).2.1 :=
  SentinelOk_loadModels meshes

/-- C10: `build` only reorders the slice it is given — its output triangle
list is a permutation of the input slice of the same length, and the
triangles stored before the slice are untouched. -/
theorem c10_permutation (bvhs : List Bvh) (ts : List Triangle) (off : ℕ)
    (triangles mesh : List Triangle) :
    List.Perm (build bvhs ts off).2 ts ∧
    (build bvhs ts off).2.length = ts.length ∧
    (∀ i, i < triangles.length →
      (Model.load triangles bvhs mesh).1[i]? = triangles[i]?) := by
  obtain ⟨new, ts', heq, hpos, hperm, -, -, -, -⟩ :=
    split_spec bvhs (rootOf ts off) ts rfl rfl rfl
  have hb2 : (build bvhs ts off).2 = ts' := by
    have hbd : build bvhs ts off = split bvhs (rootOf ts off) ts := rfl
    rw [hbd, heq]
  refine ⟨by rw [hb2]; exact hperm, by rw [hb2, hperm.length_eq], ?_⟩
  intro i hi
  have hml : (Model.load triangles bvhs mesh).1 =
      triangles ++ (build bvhs mesh triangles.length).2 := rfl
  rw [hml, List.getElem?_append, if_pos hi]

end Bvh

end RT
